import Mathlib

/-!
# LinguistMap: the map builder of `main.go`

A shallow embedding of `createSimpleMaps` and `createDetailedMaps` and the
properties of the lookup tables they build, followed by `fetchYAML`,
`createJSONFile` and `main` over an explicit state of written files.

Modelling choices.

* A Go `string` is a Lean `String`; a Go `[]string` is a `List String`, and
  `append(s, x)` is `s ++ [x]`.
* A Go `map[string]V` is a finite partial function `String → Option V`
  (`GoMap V`): `none` is "key absent".  Reading `m[k]` from a map of slices
  gives the zero value (the nil slice, `[]`) when the key is absent.
* `for k, v := range languagesMap` visits every entry once, in an order Go
  does not fix.  The input is therefore the sequence of `(name, record)` pairs
  in the order in which the loop visits them; the keys of a Go map are
  distinct, which is the predicate `NamesUnique`.
* The network, the embedded file, the YAML and JSON libraries and the file
  system are parameters (`Env`): each call has an outcome the program cannot
  influence.  `log.Fatalf` ends a run; the files written before it remain.
-/

namespace LinguistMap

/-- The record type `LanguageData` (main.go, lines 28-37). -/
structure LanguageData where
  Type_ : String
  Color : String
  Extensions : List String
  Filenames : List String
  AceMode : String
  CodemirrorMode : String
  CodemirrorMimeType : String
  LanguageId : Int
  deriving DecidableEq, Repr

/-- A Go `map[string]V`: a partial function from keys to values. -/
abbrev GoMap (V : Type) := String → Option V

/-- The empty map, `make(map[string]V)`. -/
def GoMap.empty {V : Type} : GoMap V := fun _ => none

/-- The assignment `m[k] = v`. -/
def GoMap.set {V : Type} (m : GoMap V) (k : String) (v : V) : GoMap V :=
  fun k' => if k' = k then some v else m k'

/-- The read `m[k]` on a map of slices: the nil slice when `k` is absent. -/
def GoMap.index (m : GoMap (List String)) (k : String) : List String :=
  (m k).getD []

/-- Whether `k` is a key of `m` (the `exists` of `_, exists := m[k]`). -/
def GoMap.hasKey {V : Type} (m : GoMap V) (k : String) : Bool :=
  (m k).isSome

/-- The input of the builders: the entries of `languagesMap` in the order in
which `range` visits them. -/
abbrev Catalog := List (String × LanguageData)

/-- The keys of a Go map are pairwise distinct. -/
def NamesUnique (languagesMap : Catalog) : Prop :=
  (languagesMap.map Prod.fst).Nodup

instance (languagesMap : Catalog) : Decidable (NamesUnique languagesMap) := by
  unfold NamesUnique; infer_instance

/-- Go's `strings.HasPrefix(s, p)`: `s` starts with `p`.  Go compares bytes;
for the one-byte ASCII argument `"."` used in this program that is the same as
comparing the first character. -/
def HasPrefix (s p : String) : Bool :=
  p.data.isPrefixOf s.data

/-- The normalization both builders apply to an entry of `Extensions`
(main.go, lines 90-92 and 116-118):
`if !strings.HasPrefix(ext, ".") { ext = "." + ext }`. -/
def normalizeExt (ext : String) : String :=
  if !HasPrefix ext "." then "." ++ ext else ext

/-- The two maps `createSimpleMaps` builds (main.go, lines 85-86). -/
structure SimpleMaps where
  extensionToLang : GoMap (List String)
  langToExtension : GoMap (List String)

/-- The two statements that both inner loops of `createSimpleMaps` run on a
token (main.go, lines 93-94 and 97-98). -/
def simpleAssign (langName : String) (st : SimpleMaps) (tok : String) : SimpleMaps :=
  { extensionToLang := st.extensionToLang.set tok (st.extensionToLang.index tok ++ [langName])
    langToExtension :=
      st.langToExtension.set langName (st.langToExtension.index langName ++ [tok]) }

/-- Body of the loop over `langData.Extensions` (main.go, lines 89-95). -/
def simpleExtStep (langName : String) (st : SimpleMaps) (ext : String) : SimpleMaps :=
  let ext := normalizeExt ext
  simpleAssign langName st ext

/-- Body of the loop over `langData.Filenames` (main.go, lines 96-99). -/
def simpleFileStep (langName : String) (st : SimpleMaps) (filename : String) : SimpleMaps :=
  simpleAssign langName st filename

/-- Body of the outer loop of `createSimpleMaps` (main.go, lines 88-100). -/
def simpleRecord (st : SimpleMaps) (entry : String × LanguageData) : SimpleMaps :=
  let langName := entry.1
  let langData := entry.2
  let st := langData.Extensions.foldl (simpleExtStep langName) st
  langData.Filenames.foldl (simpleFileStep langName) st

/-- The maps built by `createSimpleMaps` (main.go, lines 84-100), before they
are handed to `createJSONFile`. -/
def createSimpleMaps (languagesMap : Catalog) : SimpleMaps :=
  languagesMap.foldl simpleRecord
    { extensionToLang := GoMap.empty, langToExtension := GoMap.empty }

/-- The two maps `createDetailedMaps` builds (main.go, lines 109-110). -/
structure DetailedMaps where
  detailedExtToLang : GoMap (GoMap LanguageData)
  detailedLangToExt : GoMap LanguageData

/-- The guarded insertion both inner loops of `createDetailedMaps` run on a
token (main.go, lines 119-122 and 126-129): create the inner map when the
token is not yet a key, then store the record under the language name in
that inner map.  The inner map always exists at the store (the guard has
just run), so the `none` branch, where Go would write to a nil map, is never
taken (`detailedAssign_guard`). -/
def detailedAssign (langName : String) (langData : LanguageData)
    (m : GoMap (GoMap LanguageData)) (tok : String) : GoMap (GoMap LanguageData) :=
  let m := if !m.hasKey tok then m.set tok GoMap.empty else m
  match m tok with
  | some inner => m.set tok (inner.set langName langData)
  | none => m

/-- Body of the loop over `langData.Extensions` (main.go, lines 115-123). -/
def detailedExtStep (langName : String) (langData : LanguageData)
    (m : GoMap (GoMap LanguageData)) (ext : String) : GoMap (GoMap LanguageData) :=
  let ext := normalizeExt ext
  detailedAssign langName langData m ext

/-- Body of the loop over `langData.Filenames` (main.go, lines 125-130). -/
def detailedFileStep (langName : String) (langData : LanguageData)
    (m : GoMap (GoMap LanguageData)) (filename : String) : GoMap (GoMap LanguageData) :=
  detailedAssign langName langData m filename

/-- Body of the outer loop of `createDetailedMaps` (main.go, lines 112-131). -/
def detailedRecord (st : DetailedMaps) (entry : String × LanguageData) : DetailedMaps :=
  let langName := entry.1
  let langData := entry.2
  let detailedLangToExt := st.detailedLangToExt.set langName langData
  let m := langData.Extensions.foldl (detailedExtStep langName langData) st.detailedExtToLang
  let m := langData.Filenames.foldl (detailedFileStep langName langData) m
  { detailedExtToLang := m, detailedLangToExt := detailedLangToExt }

/-- The maps built by `createDetailedMaps` (main.go, lines 108-131), before
they are handed to `createJSONFile`. -/
def createDetailedMaps (languagesMap : Catalog) : DetailedMaps :=
  languagesMap.foldl detailedRecord
    { detailedExtToLang := GoMap.empty, detailedLangToExt := GoMap.empty }

/-- The tokens a record contributes, in the order the two inner loops visit
them: its extensions, normalized, then its filenames, verbatim. -/
def recordTokens (langData : LanguageData) : List String :=
  langData.Extensions.map normalizeExt ++ langData.Filenames

/-- A record claims a token when the token is the normalized form of one of
its extensions or is one of its filenames. -/
def Claims (langData : LanguageData) (tok : String) : Prop :=
  (∃ e ∈ langData.Extensions, normalizeExt e = tok) ∨ tok ∈ langData.Filenames

/-- The value stored under `langName` in the inner map of token `tok`, if
both keys exist: `detailedExtToLang[tok][langName]`. -/
def GoMap.index2 (m : GoMap (GoMap LanguageData)) (tok langName : String) :
    Option LanguageData :=
  (m tok).bind (fun inner => inner langName)

/-- A record with only its list fields filled in, for examples. -/
def mkLang (exts files : List String) : LanguageData :=
  { Type_ := "programming", Color := "", Extensions := exts, Filenames := files,
    AceMode := "text", CodemirrorMode := "", CodemirrorMimeType := "", LanguageId := 0 }

/-- The names appended under token `tok`, record by record: each record
contributes its name once per occurrence of `tok` among its tokens. -/
def namesFor (languagesMap : Catalog) (tok : String) : List String :=
  languagesMap.flatMap (fun entry => List.replicate ((recordTokens entry.2).count tok) entry.1)

/-- The tokens appended under `langName`, record by record. -/
def tokensFor (languagesMap : Catalog) (langName : String) : List String :=
  languagesMap.flatMap (fun entry => if entry.1 = langName then recordTokens entry.2 else [])

/-! ## Example catalogs -/

/-- Two languages sharing the header extension; one also has a filename. -/
def exampleCatalog : Catalog :=
  [("C", mkLang [".c", "h"] []), ("C++", mkLang [".cpp", ".h"] ["Makefile.cxx"]),
   ("Text", mkLang [] [])]

/-- A catalog with malformed tokens: empty strings and a repeated token. -/
def oddCatalog : Catalog :=
  [("Odd", mkLang ["", "x", ".x"] ["", ".x"]), ("Plain", mkLang ["txt"] [])]

/-! ## Files, fetching and `main` -/

/-- Name of the simple extension-index file (main.go, line 22). -/
def extensionToLangFile : String := "extension_to_language.json"

/-- Name of the simple language-index file (main.go, line 23). -/
def langToExtensionFile : String := "language_to_extension.json"

/-- Name of the detailed extension-index file (main.go, line 24). -/
def detailedExtToLangFile : String := "detailed_extension_to_language.json"

/-- Name of the detailed language-index file (main.go, line 25). -/
def detailedLangToExtFile : String := "detailed_language_to_extension.json"

/-- A Go `[]byte`. -/
abbrev Bytes := List Nat

/-- The values `createJSONFile` receives as its `data interface{}`: one of the
three map types the builders produce.  A written file is identified with the
value it serializes. -/
inductive JSONData where
  | nameLists (m : GoMap (List String))
  | nested (m : GoMap (GoMap LanguageData))
  | records (m : GoMap LanguageData)

/-- The `*http.Response` of a request that returned no error: its status
code, which the program never inspects, and what `ioutil.ReadAll(resp.Body)`
returns. -/
structure Response where
  statusCode : Nat
  readAll : Except String Bytes

/-- What the surroundings of the program decide: the outcome of
`http.Get(yamlURL)`, of reading the embedded `languages.yml`, of
`yaml.Unmarshal` (the parsed map in the order a later `range` visits it), of
`json.MarshalIndent` and of `ioutil.WriteFile`. -/
structure Env where
  httpGet : Except String Response
  embedded : Except String Bytes
  unmarshal : Bytes → Except String Catalog
  marshalOk : JSONData → Bool
  writeOk : String → Bool

/-- The observable state of a run: the files written so far, in the order of
the writes, and the lines sent to standard output and to the logger. -/
structure World where
  files : List (String × JSONData)
  stdout : List String
  stderr : List String

/-- A step of the program: it either continues in a new state or ends the
process through `log.Fatalf`, with the message and the state at exit. -/
abbrev Run := Except (String × World) World

/-- The state in which a run ends, whether normally or through `log.Fatalf`. -/
def finalWorld (r : Run) : World :=
  match r with
  | .ok w => w
  | .error (_, w) => w

/-- Whether a run ended normally. -/
def Run.succeeded (r : Run) : Bool :=
  match r with
  | .ok _ => true
  | .error _ => false

/-- The function `createJSONFile` (main.go, lines 139-149): serialize, then
write; either failure is fatal and leaves the files as they were. -/
def createJSONFile (env : Env) (data : JSONData) (filename : String) (w : World) : Run :=
  if !env.marshalOk data then
    .error ("Error creating JSON data for " ++ filename, w)
  else if !env.writeOk filename then
    .error ("Error writing JSON file " ++ filename, w)
  else
    .ok { w with files := w.files ++ [(filename, data)] }

/-- The whole of `createSimpleMaps` (main.go, lines 84-106): build the maps,
write the two files, report on standard output. -/
def createSimpleMapsFiles (env : Env) (languagesMap : Catalog) (w : World) : Run := do
  let maps := createSimpleMaps languagesMap
  let w ← createJSONFile env (.nameLists maps.extensionToLang) extensionToLangFile w
  let w ← createJSONFile env (.nameLists maps.langToExtension) langToExtensionFile w
  pure { w with stdout := w.stdout ++
    ["Simple mapping JSON files created: " ++ extensionToLangFile ++ " and "
      ++ langToExtensionFile ++ "\n"] }

/-- The whole of `createDetailedMaps` (main.go, lines 108-137). -/
def createDetailedMapsFiles (env : Env) (languagesMap : Catalog) (w : World) : Run := do
  let maps := createDetailedMaps languagesMap
  let w ← createJSONFile env (.nested maps.detailedExtToLang) detailedExtToLangFile w
  let w ← createJSONFile env (.records maps.detailedLangToExt) detailedLangToExtFile w
  pure { w with stdout := w.stdout ++
    ["Detailed mapping JSON files created: " ++ detailedExtToLangFile ++ " and "
      ++ detailedLangToExtFile ++ "\n"] }

/-- The function `fetchYAML` (main.go, lines 73-82): when `http.Get` returns
an error, log it and return what reading the embedded file returns;
otherwise return what `ioutil.ReadAll(resp.Body)` returns. -/
def fetchYAML (env : Env) (w : World) : Except String Bytes × World :=
  match env.httpGet with
  | .error err =>
    (env.embedded,
      { w with stderr := w.stderr ++
          ["Error fetching YAML from URL: " ++ err, "Falling back to embedded YAML file..."] })
  | .ok resp => (resp.readAll, w)

/-- The value of `detailed` after `flag.Parse` (main.go, lines 41-51): both
flag names `d` and `detailed` are bound to the one variable, whose default is
`false`; `assignments` are the flags the command line sets, in order, with
the boolean each is given. -/
def parseDetailed (assignments : List (String × Bool)) : Bool :=
  assignments.foldl
    (fun detailed a => if a.1 = "d" ∨ a.1 = "detailed" then a.2 else detailed) false

/-- The function `main` (main.go, lines 39-71). -/
def main (env : Env) (assignments : List (String × Bool)) (w : World) : Run :=
  let detailed := parseDetailed assignments
  match fetchYAML env w with
  | (.error err, w) => .error ("Error obtaining YAML data: " ++ err, w)
  | (.ok data, w) =>
    match env.unmarshal data with
    | .error err => .error ("Error parsing YAML: " ++ err, w)
    | .ok languagesMap =>
      if detailed then createDetailedMapsFiles env languagesMap w
      else createSimpleMapsFiles env languagesMap w

/-- The two files of simple mode, in the order `createSimpleMaps` writes them. -/
def simpleOutputs (languagesMap : Catalog) : List (String × JSONData) :=
  [(extensionToLangFile, .nameLists (createSimpleMaps languagesMap).extensionToLang),
   (langToExtensionFile, .nameLists (createSimpleMaps languagesMap).langToExtension)]

/-- The two files of detailed mode, in the order `createDetailedMaps` writes
them. -/
def detailedOutputs (languagesMap : Catalog) : List (String × JSONData) :=
  [(detailedExtToLangFile, .nested (createDetailedMaps languagesMap).detailedExtToLang),
   (detailedLangToExtFile, .records (createDetailedMaps languagesMap).detailedLangToExt)]

/-- Whether `createJSONFile` gets the given file written: both the
serialization and the write succeed. -/
def attempt (env : Env) (out : String × JSONData) : Bool :=
  env.marshalOk out.2 && env.writeOk out.1

/-- The scenario of the specification: `Go` with extension `go`, `C++` with
extensions `.h` and `.cpp`. -/
def scenarioCatalog : Catalog :=
  [("Go", mkLang ["go"] []), ("C++", mkLang [".h", ".cpp"] [])]

/-- Two languages that share one token. -/
def sharedCatalog : Catalog :=
  [("C", mkLang [".h"] []), ("C++", mkLang [".h"] [])]

/-- One language listing the same token twice, as `h` and as `.h`. -/
def twiceCatalog : Catalog :=
  [("C", mkLang ["h", ".h"] [])]

/-- One language listing `.x` as an extension and as a filename. -/
def bothListsCatalog : Catalog :=
  [("X", mkLang [".x"] [".x"])]

/-- An environment in which the request succeeds with the given body and
every serialization and write succeeds. -/
def goodEnv (recs : Catalog) : Env :=
  { httpGet := .ok { statusCode := 200, readAll := .ok [] }
    embedded := .ok []
    unmarshal := fun _ => .ok recs
    marshalOk := fun _ => true
    writeOk := fun _ => true }

/-- An environment in which the request succeeds but reading its body fails;
the embedded file is readable. -/
def brokenBodyEnv : Env :=
  { httpGet := .ok { statusCode := 200, readAll := .error "unexpected EOF" }
    embedded := .ok [1, 2, 3]
    unmarshal := fun _ => .ok exampleCatalog
    marshalOk := fun _ => true
    writeOk := fun _ => true }

/-- An environment in which the request itself fails. -/
def offlineEnv : Env :=
  { httpGet := .error "dial tcp: no route to host"
    embedded := .ok [1, 2, 3]
    unmarshal := fun _ => .ok exampleCatalog
    marshalOk := fun _ => true
    writeOk := fun _ => true }

/-- The state before the program has done anything. -/
def World.initial : World := { files := [], stdout := [], stderr := [] }

/-! ## Basic facts about maps and normalization -/

theorem mem_recordTokens (langData : LanguageData) (tok : String) :
    tok ∈ recordTokens langData ↔ Claims langData tok := by
  simp [recordTokens, Claims]

theorem recordTokens_eq_nil (langData : LanguageData) :
    recordTokens langData = [] ↔ langData.Extensions = [] ∧ langData.Filenames = [] := by
  simp [recordTokens]

theorem simpleRecord_eq (st : SimpleMaps) (entry : String × LanguageData) :
    simpleRecord st entry = (recordTokens entry.2).foldl (simpleAssign entry.1) st := by
  simp only [simpleRecord, recordTokens, List.foldl_append, List.foldl_map]
  rfl

/-! ## The simple maps -/

theorem foldAssign_ext_index (n t : String) (ts : List String) (st : SimpleMaps) :
    (ts.foldl (simpleAssign n) st).extensionToLang.index t
      = st.extensionToLang.index t ++ List.replicate (ts.count t) n := by
  induction ts generalizing st with
  | nil => simp
  | cons a ts ih =>
    rw [List.foldl_cons, ih]
    by_cases h : a = t
    · subst h
      simp [simpleAssign, GoMap.index, GoMap.set, List.replicate_succ]
    · have h2 : ¬ t = a := fun e => h e.symm
      simp [simpleAssign, GoMap.index, GoMap.set, h, h2, List.count_cons]

theorem foldAssign_ext_hasKey (n t : String) (ts : List String) (st : SimpleMaps) :
    (ts.foldl (simpleAssign n) st).extensionToLang.hasKey t
      = (st.extensionToLang.hasKey t || decide (t ∈ ts)) := by
  induction ts generalizing st with
  | nil => simp
  | cons a ts ih =>
    rw [List.foldl_cons, ih]
    by_cases h : t = a
    · subst h
      simp [simpleAssign, GoMap.hasKey, GoMap.set]
    · simp [simpleAssign, GoMap.hasKey, GoMap.set, h]

theorem foldAssign_lang_index (n m : String) (ts : List String) (st : SimpleMaps) :
    (ts.foldl (simpleAssign n) st).langToExtension.index m
      = st.langToExtension.index m ++ (if m = n then ts else []) := by
  induction ts generalizing st with
  | nil => simp
  | cons a ts ih =>
    rw [List.foldl_cons, ih]
    by_cases h : m = n
    · subst h
      simp [simpleAssign, GoMap.index, GoMap.set]
    · simp [simpleAssign, GoMap.index, GoMap.set, h]

theorem foldAssign_lang_hasKey (n m : String) (ts : List String) (st : SimpleMaps) :
    (ts.foldl (simpleAssign n) st).langToExtension.hasKey m
      = (st.langToExtension.hasKey m || (decide (m = n) && !ts.isEmpty)) := by
  induction ts generalizing st with
  | nil => simp
  | cons a ts ih =>
    rw [List.foldl_cons, ih]
    by_cases h : m = n
    · subst h
      simp [simpleAssign, GoMap.hasKey, GoMap.set]
    · simp [simpleAssign, GoMap.hasKey, GoMap.set, h]

theorem foldRecord_ext_index (t : String) (recs : Catalog) (st : SimpleMaps) :
    (recs.foldl simpleRecord st).extensionToLang.index t
      = st.extensionToLang.index t ++ namesFor recs t := by
  induction recs generalizing st with
  | nil => simp [namesFor]
  | cons r recs ih =>
    rw [List.foldl_cons, ih, simpleRecord_eq, foldAssign_ext_index]
    simp [namesFor]

theorem foldRecord_ext_hasKey (t : String) (recs : Catalog) (st : SimpleMaps) :
    (recs.foldl simpleRecord st).extensionToLang.hasKey t
      = (st.extensionToLang.hasKey t || recs.any (fun r => decide (t ∈ recordTokens r.2))) := by
  induction recs generalizing st with
  | nil => simp
  | cons r recs ih =>
    rw [List.foldl_cons, ih, simpleRecord_eq, foldAssign_ext_hasKey]
    simp [Bool.or_assoc]

theorem foldRecord_lang_index (m : String) (recs : Catalog) (st : SimpleMaps) :
    (recs.foldl simpleRecord st).langToExtension.index m
      = st.langToExtension.index m ++ tokensFor recs m := by
  induction recs generalizing st with
  | nil => simp [tokensFor]
  | cons r recs ih =>
    rw [List.foldl_cons, ih, simpleRecord_eq, foldAssign_lang_index]
    simp [tokensFor, eq_comm]

theorem foldRecord_lang_hasKey (m : String) (recs : Catalog) (st : SimpleMaps) :
    (recs.foldl simpleRecord st).langToExtension.hasKey m
      = (st.langToExtension.hasKey m
          || recs.any (fun r => decide (r.1 = m) && !(recordTokens r.2).isEmpty)) := by
  induction recs generalizing st with
  | nil => simp
  | cons r recs ih =>
    rw [List.foldl_cons, ih, simpleRecord_eq, foldAssign_lang_hasKey]
    simp [Bool.or_assoc, eq_comm]

/-- The list stored under a token by `createSimpleMaps`. -/
theorem simple_ext_index (recs : Catalog) (t : String) :
    (createSimpleMaps recs).extensionToLang.index t = namesFor recs t := by
  rw [createSimpleMaps, foldRecord_ext_index]
  simp [GoMap.index, GoMap.empty]

/-- The keys of the extension index built by `createSimpleMaps`. -/
theorem simple_ext_hasKey (recs : Catalog) (t : String) :
    (createSimpleMaps recs).extensionToLang.hasKey t = true
      ↔ ∃ r ∈ recs, Claims r.2 t := by
  rw [createSimpleMaps, foldRecord_ext_hasKey]
  simp [GoMap.hasKey, GoMap.empty, mem_recordTokens]

/-- The list stored under a language name by `createSimpleMaps`. -/
theorem simple_lang_index (recs : Catalog) (n : String) :
    (createSimpleMaps recs).langToExtension.index n = tokensFor recs n := by
  rw [createSimpleMaps, foldRecord_lang_index]
  simp [GoMap.index, GoMap.empty]

/-- The keys of the language index built by `createSimpleMaps`. -/
theorem simple_lang_hasKey (recs : Catalog) (n : String) :
    (createSimpleMaps recs).langToExtension.hasKey n = true
      ↔ ∃ r ∈ recs, r.1 = n ∧ recordTokens r.2 ≠ [] := by
  rw [createSimpleMaps, foldRecord_lang_hasKey]
  simp [GoMap.hasKey, GoMap.empty]

/-- A stored list is determined by key presence and the indexed read. -/
theorem GoMap.eq_some_iff (m : GoMap (List String)) (k : String) (l : List String) :
    m k = some l ↔ m.hasKey k = true ∧ m.index k = l := by
  cases h : m k <;> simp [GoMap.hasKey, GoMap.index, h]

/-! ## Normalization -/

theorem HasPrefix_dot (s : String) :
    HasPrefix s "." = true ↔ ∃ rest, s.data = '.' :: rest := by
  unfold HasPrefix
  cases h : s.data with
  | nil => simp [List.isPrefixOf]
  | cons c cs =>
    have hd : (".".data : List Char) = ['.'] := rfl
    rw [hd]
    simp only [List.isPrefixOf, Bool.and_true, beq_iff_eq, List.cons.injEq, exists_eq_right']
    exact eq_comm

theorem normalizeExt_of_dot (e : String) (h : HasPrefix e "." = true) :
    normalizeExt e = e := by
  simp [normalizeExt, h]

theorem normalizeExt_of_not_dot (e : String) (h : HasPrefix e "." = false) :
    normalizeExt e = "." ++ e := by
  simp [normalizeExt, h]

theorem HasPrefix_normalizeExt (e : String) : HasPrefix (normalizeExt e) "." = true := by
  cases h : HasPrefix e "."
  · rw [normalizeExt_of_not_dot e h, HasPrefix_dot]
    exact ⟨e.data, rfl⟩
  · rw [normalizeExt_of_dot e h]; exact h

theorem normalizeExt_idem (e : String) : normalizeExt (normalizeExt e) = normalizeExt e :=
  normalizeExt_of_dot _ (HasPrefix_normalizeExt e)

/-! ## The detailed maps -/

/-- After the guard of lines 119-121 the token is a key, so the store of line
122 always finds an inner map. -/
theorem detailedAssign_guard (m : GoMap (GoMap LanguageData)) (tok : String) :
    (if !m.hasKey tok then m.set tok GoMap.empty else m).hasKey tok = true := by
  cases h : m tok <;> simp [GoMap.hasKey, GoMap.set, h]

theorem detailedAssign_eq (n : String) (d : LanguageData) (m : GoMap (GoMap LanguageData))
    (tok : String) :
    detailedAssign n d m tok = m.set tok (((m tok).getD GoMap.empty).set n d) := by
  funext k
  by_cases hk : k = tok <;> cases h : m tok <;>
    simp [detailedAssign, GoMap.hasKey, GoMap.set, h, hk]

theorem foldAssignD_hasKey (n : String) (d : LanguageData) (t : String) (ts : List String)
    (m : GoMap (GoMap LanguageData)) :
    (ts.foldl (detailedAssign n d) m).hasKey t = (m.hasKey t || decide (t ∈ ts)) := by
  induction ts generalizing m with
  | nil => simp
  | cons a ts ih =>
    rw [List.foldl_cons, ih, detailedAssign_eq]
    by_cases h : t = a
    · subst h
      simp [GoMap.hasKey, GoMap.set]
    · simp [GoMap.hasKey, GoMap.set, h]

theorem foldAssignD_index2 (n : String) (d : LanguageData) (t k : String) (ts : List String)
    (m : GoMap (GoMap LanguageData)) :
    (ts.foldl (detailedAssign n d) m).index2 t k
      = if t ∈ ts ∧ k = n then some d else m.index2 t k := by
  induction ts generalizing m with
  | nil => simp
  | cons a ts ih =>
    rw [List.foldl_cons, ih, detailedAssign_eq]
    by_cases h : t = a
    · subst h
      by_cases hk : k = n
      · simp [GoMap.index2, GoMap.set, hk]
      · simp [GoMap.index2, GoMap.set, hk]
        cases m t <;> simp [GoMap.empty]
    · by_cases h2 : t ∈ ts ∧ k = n
      · simp [h2]
      · have h3 : ¬ ((t = a ∨ t ∈ ts) ∧ k = n) := by
          rintro ⟨h4 | h4, h5⟩
          · exact h h4
          · exact h2 ⟨h4, h5⟩
        simp [h2, h3, GoMap.index2, GoMap.set, h]

theorem detailedRecord_ext (st : DetailedMaps) (entry : String × LanguageData) :
    (detailedRecord st entry).detailedExtToLang
      = (recordTokens entry.2).foldl (detailedAssign entry.1 entry.2) st.detailedExtToLang := by
  simp only [detailedRecord, recordTokens, List.foldl_append, List.foldl_map]
  rfl

theorem detailedRecord_lang (st : DetailedMaps) (entry : String × LanguageData) :
    (detailedRecord st entry).detailedLangToExt
      = st.detailedLangToExt.set entry.1 entry.2 := rfl

theorem createDetailedMaps_snoc (recs : Catalog) (r : String × LanguageData) :
    createDetailedMaps (recs ++ [r]) = detailedRecord (createDetailedMaps recs) r := by
  simp [createDetailedMaps, List.foldl_append]

theorem NamesUnique_snoc (recs : Catalog) (r : String × LanguageData) :
    NamesUnique (recs ++ [r]) ↔ NamesUnique recs ∧ ∀ d, (r.1, d) ∉ recs := by
  unfold NamesUnique
  rw [List.map_append, List.nodup_append]
  simp [List.disjoint_left]

/-- The token keys of the extension index built by `createDetailedMaps`. -/
theorem detailed_ext_hasKey (recs : Catalog) (t : String) :
    (createDetailedMaps recs).detailedExtToLang.hasKey t = true
      ↔ ∃ r ∈ recs, Claims r.2 t := by
  induction recs using List.reverseRecOn with
  | nil => simp [createDetailedMaps, GoMap.hasKey, GoMap.empty]
  | append_singleton recs r ih =>
    rw [createDetailedMaps_snoc, detailedRecord_ext, foldAssignD_hasKey, Bool.or_eq_true, ih]
    simp only [decide_eq_true_eq, mem_recordTokens, List.mem_append, List.mem_singleton]
    constructor
    · rintro (⟨x, hx, hc⟩ | hc)
      · exact ⟨x, Or.inl hx, hc⟩
      · exact ⟨r, Or.inr rfl, hc⟩
    · rintro ⟨x, hx | hx, hc⟩
      · exact Or.inl ⟨x, hx, hc⟩
      · subst hx; exact Or.inr hc

/-- The inner keys of the extension index built by `createDetailedMaps`. -/
theorem detailed_index2_isSome (recs : Catalog) (t n : String) :
    ((createDetailedMaps recs).detailedExtToLang.index2 t n).isSome = true
      ↔ ∃ d, (n, d) ∈ recs ∧ Claims d t := by
  induction recs using List.reverseRecOn with
  | nil => simp [createDetailedMaps, GoMap.index2, GoMap.empty]
  | append_singleton recs r ih =>
    rw [createDetailedMaps_snoc, detailedRecord_ext, foldAssignD_index2]
    obtain ⟨rn, rd⟩ := r
    by_cases h : t ∈ recordTokens rd ∧ n = rn
    · simp only [h, and_self, if_true, Option.isSome_some, true_iff]
      exact ⟨rd, by simp [h.2], (mem_recordTokens _ _).1 h.1⟩
    · simp only [h, if_false, ih, List.mem_append, List.mem_singleton, Prod.mk.injEq]
      constructor
      · rintro ⟨d, hd, hc⟩; exact ⟨d, Or.inl hd, hc⟩
      · rintro ⟨d, hd | ⟨h1, h2⟩, hc⟩
        · exact ⟨d, hd, hc⟩
        · subst h1 h2; exact absurd ⟨(mem_recordTokens _ _).2 hc, rfl⟩ h

/-- With distinct names, the inner entries of the extension index built by
`createDetailedMaps` are exactly the records of the claiming languages. -/
theorem detailed_index2_eq_some (recs : Catalog) (hu : NamesUnique recs)
    (t n : String) (d : LanguageData) :
    (createDetailedMaps recs).detailedExtToLang.index2 t n = some d
      ↔ (n, d) ∈ recs ∧ Claims d t := by
  induction recs using List.reverseRecOn with
  | nil => simp [createDetailedMaps, GoMap.index2, GoMap.empty]
  | append_singleton recs r ih =>
    obtain ⟨hu1, hu2⟩ := (NamesUnique_snoc recs r).1 hu
    rw [createDetailedMaps_snoc, detailedRecord_ext, foldAssignD_index2]
    obtain ⟨rn, rd⟩ := r
    by_cases h : t ∈ recordTokens rd ∧ n = rn
    · obtain ⟨h1, h2⟩ := h
      subst h2
      simp only [h1, and_self, if_true, Option.some.injEq, List.mem_append, List.mem_singleton,
        Prod.mk.injEq, true_and]
      constructor
      · intro e; subst e; exact ⟨Or.inr rfl, (mem_recordTokens _ _).1 h1⟩
      · rintro ⟨hd | hd, _⟩
        · exact absurd hd (hu2 d)
        · exact hd.symm
    · simp only [h, if_false, ih hu1, List.mem_append, List.mem_singleton, Prod.mk.injEq]
      constructor
      · rintro ⟨hd, hc⟩; exact ⟨Or.inl hd, hc⟩
      · rintro ⟨hd | ⟨h1, h2⟩, hc⟩
        · exact ⟨hd, hc⟩
        · subst h1 h2; exact absurd ⟨(mem_recordTokens _ _).2 hc, rfl⟩ h

/-- With distinct names, the language index built by `createDetailedMaps`
holds exactly the input entries. -/
theorem detailed_lang_eq_some (recs : Catalog) (hu : NamesUnique recs)
    (n : String) (d : LanguageData) :
    (createDetailedMaps recs).detailedLangToExt n = some d ↔ (n, d) ∈ recs := by
  induction recs using List.reverseRecOn with
  | nil => simp [createDetailedMaps, GoMap.empty]
  | append_singleton recs r ih =>
    obtain ⟨hu1, hu2⟩ := (NamesUnique_snoc recs r).1 hu
    rw [createDetailedMaps_snoc, detailedRecord_lang]
    obtain ⟨rn, rd⟩ := r
    by_cases h : n = rn
    · subst h
      simp only [GoMap.set, if_true, Option.some.injEq, List.mem_append, List.mem_singleton,
        Prod.mk.injEq, true_and]
      constructor
      · intro e; exact Or.inr e.symm
      · rintro (hd | hd)
        · exact absurd hd (hu2 d)
        · exact hd.symm
    · simp [GoMap.set, h, ih hu1]

/-! ## Consequences used by the main theorems -/

theorem mem_namesFor (recs : Catalog) (t n : String) :
    n ∈ namesFor recs t ↔ ∃ d, (n, d) ∈ recs ∧ Claims d t := by
  simp only [namesFor, List.mem_flatMap, List.mem_replicate, ne_eq, List.count_eq_zero,
    not_not, mem_recordTokens]
  constructor
  · rintro ⟨⟨rn, rd⟩, hr, hc, rfl⟩; exact ⟨rd, hr, hc⟩
  · rintro ⟨d, hr, hc⟩; exact ⟨(n, d), hr, hc, rfl⟩

theorem mem_tokensFor (recs : Catalog) (n t : String) :
    t ∈ tokensFor recs n ↔ ∃ d, (n, d) ∈ recs ∧ Claims d t := by
  simp only [tokensFor, List.mem_flatMap]
  constructor
  · rintro ⟨⟨rn, rd⟩, hr, hc⟩
    by_cases h : rn = n
    · subst h; exact ⟨rd, hr, (mem_recordTokens _ _).1 (by simpa using hc)⟩
    · simp [h] at hc
  · rintro ⟨d, hr, hc⟩
    exact ⟨(n, d), hr, by simpa using (mem_recordTokens _ _).2 hc⟩

theorem NamesUnique_cons (r : String × LanguageData) (recs : Catalog) :
    NamesUnique (r :: recs) ↔ (∀ d, (r.1, d) ∉ recs) ∧ NamesUnique recs := by
  simp [NamesUnique]

theorem tokensFor_of_not_mem (recs : Catalog) (n : String) (h : ∀ d, (n, d) ∉ recs) :
    tokensFor recs n = [] := by
  simp only [tokensFor, List.flatMap_eq_nil_iff]
  rintro ⟨rn, rd⟩ hr
  by_cases e : rn = n
  · subst e; exact absurd hr (h rd)
  · simp [e]

/-- With distinct names, the tokens appended under a name are those of its
one record. -/
theorem tokensFor_unique (recs : Catalog) (hu : NamesUnique recs) (n : String)
    (d : LanguageData) (h : (n, d) ∈ recs) : tokensFor recs n = recordTokens d := by
  induction recs with
  | nil => simp at h
  | cons r recs ih =>
    obtain ⟨hu1, hu2⟩ := (NamesUnique_cons r recs).1 hu
    obtain ⟨rn, rd⟩ := r
    rcases List.mem_cons.1 h with e | h'
    · obtain ⟨e1, e2⟩ := Prod.mk.inj e
      subst e1 e2
      have := tokensFor_of_not_mem recs n hu1
      simp only [tokensFor] at this
      simp [tokensFor, this]
    · have hne : rn ≠ n := fun e => hu1 d (by simpa [e] using h')
      have := ih hu2 h'
      simp only [tokensFor] at this
      simp [tokensFor, hne, this]

theorem namesFor_append (a b : Catalog) (t : String) :
    namesFor (a ++ b) t = namesFor a t ++ namesFor b t := by
  simp [namesFor]

theorem namesFor_filter (recs : Catalog) (t : String)
    (h : ∀ r ∈ recs, (recordTokens r.2).count t ≤ 1) :
    namesFor recs t
      = (recs.filter (fun r => decide (t ∈ recordTokens r.2))).map Prod.fst := by
  induction recs with
  | nil => simp [namesFor]
  | cons r recs ih =>
    have ih2 := ih (fun x hx => h x (List.mem_cons_of_mem _ hx))
    simp only [namesFor] at ih2
    have h1 := h r (List.mem_cons_self _ _)
    by_cases hm : t ∈ recordTokens r.2
    · have h2 : (recordTokens r.2).count t = 1 :=
        le_antisymm h1 (List.count_pos_iff.2 hm)
      simp [namesFor, hm, h2, ih2]
    · have h2 : (recordTokens r.2).count t = 0 := List.count_eq_zero.2 hm
      simp [namesFor, hm, h2, ih2]

theorem GoMap.index2_eq_some_iff (m : GoMap (GoMap LanguageData)) (t n : String)
    (d : LanguageData) :
    m.index2 t n = some d ↔ ∃ inner, m t = some inner ∧ inner n = some d := by
  cases h : m t <;> simp [GoMap.index2, h]

theorem GoMap.index2_isSome_iff (m : GoMap (GoMap LanguageData)) (t n : String) :
    (m.index2 t n).isSome = true ↔ ∃ inner, m t = some inner ∧ (inner n).isSome = true := by
  cases h : m t <;> simp [GoMap.index2, h]

theorem exists_claims_iff (d : LanguageData) :
    (∃ t, Claims d t) ↔ (d.Extensions ≠ [] ∨ d.Filenames ≠ []) := by
  constructor
  · rintro ⟨t, ⟨e, he, _⟩ | hf⟩
    · exact Or.inl (List.ne_nil_of_mem he)
    · exact Or.inr (List.ne_nil_of_mem hf)
  · rintro (h | h)
    · obtain ⟨e, he⟩ := List.exists_mem_of_ne_nil _ h
      exact ⟨normalizeExt e, Or.inl ⟨e, he, rfl⟩⟩
    · obtain ⟨f, hf⟩ := List.exists_mem_of_ne_nil _ h
      exact ⟨f, Or.inr hf⟩

/-- A record without tokens leaves the simple maps as they are. -/
theorem simpleRecord_of_no_tokens (st : SimpleMaps) (r : String × LanguageData)
    (he : r.2.Extensions = []) (hf : r.2.Filenames = []) : simpleRecord st r = st := by
  simp [simpleRecord, he, hf]

/-- The extension index of `createDetailedMaps` evolves independently of the
language index. -/
theorem foldRecordD_ext (recs : Catalog) (st : DetailedMaps) :
    (recs.foldl detailedRecord st).detailedExtToLang
      = recs.foldl (fun m r => (recordTokens r.2).foldl (detailedAssign r.1 r.2) m)
          st.detailedExtToLang := by
  induction recs generalizing st with
  | nil => rfl
  | cons r recs ih => rw [List.foldl_cons, ih, detailedRecord_ext, List.foldl_cons]


/-- Every stored list of the simple extension index is non-empty and holds
only names of records that claim the token. -/
theorem simple_ext_sound (recs : Catalog) (t : String) (l : List String)
    (hl : (createSimpleMaps recs).extensionToLang t = some l) :
    l ≠ [] ∧ (∃ r ∈ recs, Claims r.2 t) ∧ ∀ n ∈ l, ∃ d, (n, d) ∈ recs ∧ Claims d t := by
  obtain ⟨hk, hi⟩ := (GoMap.eq_some_iff _ _ _).1 hl
  rw [simple_ext_index] at hi
  subst hi
  obtain ⟨⟨rn, rd⟩, hr, hc⟩ := (simple_ext_hasKey recs t).1 hk
  refine ⟨?_, ⟨(rn, rd), hr, hc⟩, fun n hn => (mem_namesFor recs t n).1 hn⟩
  exact List.ne_nil_of_mem ((mem_namesFor recs t rn).2 ⟨rd, hr, hc⟩)

/-- Every key of the simple language index names a record with a token. -/
theorem simple_lang_sound (recs : Catalog) (n : String) (l : List String)
    (hl : (createSimpleMaps recs).langToExtension n = some l) :
    ∃ d, (n, d) ∈ recs ∧ (d.Extensions ≠ [] ∨ d.Filenames ≠ []) := by
  obtain ⟨hk, _⟩ := (GoMap.eq_some_iff _ _ _).1 hl
  obtain ⟨⟨rn, rd⟩, hr, e, hne⟩ := (simple_lang_hasKey recs n).1 hk
  simp only at e
  subst e
  refine ⟨rd, hr, ?_⟩
  by_contra hcon
  push_neg at hcon
  exact hne ((recordTokens_eq_nil rd).2 hcon)

theorem count_namesFor (recs : Catalog) (t n : String) :
    (namesFor recs t).count n = (tokensFor recs n).count t := by
  induction recs with
  | nil => simp [namesFor, tokensFor]
  | cons r recs ih =>
    simp only [namesFor, tokensFor] at ih
    simp only [namesFor, tokensFor, List.flatMap_cons, List.count_append, ih,
      List.count_replicate]
    by_cases h : r.1 = n <;> simp [h]

/-- A key of either extension index that lacks the leading period comes from
a `Filenames` list. -/
theorem claims_without_dot (d : LanguageData) (t : String) (hc : Claims d t)
    (hp : HasPrefix t "." = false) : t ∈ d.Filenames := by
  rcases hc with ⟨e, _, rfl⟩ | hf
  · rw [HasPrefix_normalizeExt] at hp; exact absurd hp (by decide)
  · exact hf

/-! ## Iteration order -/

theorem NamesUnique_perm {recs1 recs2 : Catalog} (hp : recs1.Perm recs2) :
    NamesUnique recs1 ↔ NamesUnique recs2 :=
  (hp.map Prod.fst).nodup_iff

theorem namesFor_perm {recs1 recs2 : Catalog} (hp : recs1.Perm recs2) (t : String) :
    (namesFor recs1 t).Perm (namesFor recs2 t) :=
  hp.flatMap_right _

/-- The list stored under a token, as an optional value. -/
theorem simple_ext_eq_some_iff (recs : Catalog) (t : String) (l : List String) :
    (createSimpleMaps recs).extensionToLang t = some l ↔ l ≠ [] ∧ l = namesFor recs t := by
  rw [GoMap.eq_some_iff, simple_ext_index, simple_ext_hasKey]
  constructor
  · rintro ⟨⟨⟨rn, rd⟩, hr, hc⟩, rfl⟩
    exact ⟨List.ne_nil_of_mem ((mem_namesFor recs t rn).2 ⟨rd, hr, hc⟩), rfl⟩
  · rintro ⟨hne, rfl⟩
    obtain ⟨n, hn⟩ := List.exists_mem_of_ne_nil _ hne
    obtain ⟨d, hd, hc⟩ := (mem_namesFor recs t n).1 hn
    exact ⟨⟨(n, d), hd, hc⟩, rfl⟩

/-- The stored list depends only on the names appended under the token. -/
theorem simple_ext_congr (recs1 recs2 : Catalog) (t : String)
    (h : namesFor recs1 t = namesFor recs2 t) :
    (createSimpleMaps recs1).extensionToLang t = (createSimpleMaps recs2).extensionToLang t := by
  apply Option.ext
  intro l
  rw [Option.mem_def, Option.mem_def, simple_ext_eq_some_iff, simple_ext_eq_some_iff, h]

/-- With distinct names, the list stored under a language name, as an
optional value. -/
theorem simple_lang_eq_some_iff (recs : Catalog) (hu : NamesUnique recs) (n : String)
    (l : List String) :
    (createSimpleMaps recs).langToExtension n = some l
      ↔ ∃ d, (n, d) ∈ recs ∧ recordTokens d ≠ [] ∧ l = recordTokens d := by
  rw [GoMap.eq_some_iff, simple_lang_index, simple_lang_hasKey]
  constructor
  · rintro ⟨⟨⟨rn, rd⟩, hr, e, hne⟩, rfl⟩
    simp only at e
    subst e
    exact ⟨rd, hr, hne, tokensFor_unique recs hu rn rd hr⟩
  · rintro ⟨d, hd, hne, rfl⟩
    exact ⟨⟨(n, d), hd, rfl, hne⟩, tokensFor_unique recs hu n d hd⟩

/-- The simple language index does not depend on the iteration order. -/
theorem simple_lang_perm (recs1 recs2 : Catalog) (hu : NamesUnique recs1)
    (hp : recs1.Perm recs2) :
    (createSimpleMaps recs1).langToExtension = (createSimpleMaps recs2).langToExtension := by
  funext n
  apply Option.ext
  intro l
  rw [Option.mem_def, Option.mem_def, simple_lang_eq_some_iff recs1 hu,
    simple_lang_eq_some_iff recs2 ((NamesUnique_perm hp).1 hu)]
  simp only [hp.mem_iff]

/-- The detailed language index does not depend on the iteration order. -/
theorem detailed_lang_perm (recs1 recs2 : Catalog) (hu : NamesUnique recs1)
    (hp : recs1.Perm recs2) :
    (createDetailedMaps recs1).detailedLangToExt
      = (createDetailedMaps recs2).detailedLangToExt := by
  funext n
  apply Option.ext
  intro d
  rw [Option.mem_def, Option.mem_def, detailed_lang_eq_some recs1 hu,
    detailed_lang_eq_some recs2 ((NamesUnique_perm hp).1 hu), hp.mem_iff]

/-- The detailed extension index does not depend on the iteration order. -/
theorem detailed_ext_perm (recs1 recs2 : Catalog) (hu : NamesUnique recs1)
    (hp : recs1.Perm recs2) :
    (createDetailedMaps recs1).detailedExtToLang
      = (createDetailedMaps recs2).detailedExtToLang := by
  funext t
  have hkey : (createDetailedMaps recs1).detailedExtToLang.hasKey t
      = (createDetailedMaps recs2).detailedExtToLang.hasKey t := by
    rw [Bool.eq_iff_iff, detailed_ext_hasKey, detailed_ext_hasKey]
    simp only [hp.mem_iff]
  have hin : ∀ n, (createDetailedMaps recs1).detailedExtToLang.index2 t n
      = (createDetailedMaps recs2).detailedExtToLang.index2 t n := by
    intro n
    apply Option.ext
    intro d
    rw [Option.mem_def, Option.mem_def, detailed_index2_eq_some recs1 hu,
      detailed_index2_eq_some recs2 ((NamesUnique_perm hp).1 hu), hp.mem_iff]
  cases h1 : (createDetailedMaps recs1).detailedExtToLang t with
  | none =>
    cases h2 : (createDetailedMaps recs2).detailedExtToLang t with
    | none => rfl
    | some i2 => simp [GoMap.hasKey, h1, h2] at hkey
  | some i1 =>
    cases h2 : (createDetailedMaps recs2).detailedExtToLang t with
    | none => simp [GoMap.hasKey, h1, h2] at hkey
    | some i2 =>
      congr 1
      funext n
      have := hin n
      simpa [GoMap.index2, h1, h2] using this

/-- Records that do not claim a token add nothing under it. -/
theorem namesFor_filter_claims (recs : Catalog) (t : String) :
    namesFor recs t
      = namesFor (recs.filter (fun r => decide (t ∈ recordTokens r.2))) t := by
  induction recs with
  | nil => rfl
  | cons r recs ih =>
    simp only [namesFor] at ih
    by_cases h : t ∈ recordTokens r.2
    · simp [namesFor, List.filter_cons, h, ih]
    · simp [namesFor, List.filter_cons, h, ih, List.count_eq_zero.2 h]

/-! ## Counting entries -/

/-- The names that are keys of the inner map of a token are the names in the
simple list of that token. -/
theorem innerKeys_eq (recs : Catalog) (t : String) :
    {n | ((createDetailedMaps recs).detailedExtToLang.index2 t n).isSome = true}
      = ((namesFor recs t).toFinset : Set String) := by
  ext n
  simp only [Set.mem_setOf_eq, List.coe_toFinset, detailed_index2_isSome, mem_namesFor]

/-- With distinct names, the names appended under a token are pairwise
different exactly when no record lists the token twice. -/
theorem namesFor_nodup_iff (recs : Catalog) (hu : NamesUnique recs) (t : String) :
    (namesFor recs t).Nodup ↔ ∀ r ∈ recs, (recordTokens r.2).count t ≤ 1 := by
  induction recs with
  | nil => simp [namesFor]
  | cons r recs ih =>
    obtain ⟨hu1, hu2⟩ := (NamesUnique_cons r recs).1 hu
    have hcons : namesFor (r :: recs) t
        = List.replicate ((recordTokens r.2).count t) r.1 ++ namesFor recs t := by
      simp [namesFor]
    have hdis : List.Disjoint (List.replicate ((recordTokens r.2).count t) r.1)
        (namesFor recs t) := by
      intro x hx hx2
      obtain ⟨_, rfl⟩ := List.mem_replicate.1 hx
      obtain ⟨d, hd, _⟩ := (mem_namesFor recs t _).1 hx2
      exact hu1 d hd
    rw [hcons, List.nodup_append, List.nodup_replicate, ih hu2]
    constructor
    · rintro ⟨h1, h2, _⟩ x hx
      rcases List.mem_cons.1 hx with e | hx
      · rw [e]; exact h1
      · exact h2 x hx
    · intro h
      exact ⟨h r (List.mem_cons_self _ _), fun x hx => h x (List.mem_cons_of_mem _ hx), hdis⟩

/-! ## Files -/

theorem createJSONFile_of_attempt (env : Env) (data : JSONData) (filename : String)
    (w : World) (h : attempt env (filename, data) = true) :
    createJSONFile env data filename w
      = .ok { w with files := w.files ++ [(filename, data)] } := by
  simp only [attempt, Bool.and_eq_true] at h
  simp [createJSONFile, h.1, h.2]

theorem createJSONFile_of_not_attempt (env : Env) (data : JSONData) (filename : String)
    (w : World) (h : attempt env (filename, data) = false) :
    ∃ msg, createJSONFile env data filename w = .error (msg, w) := by
  simp only [attempt, Bool.and_eq_false_iff] at h
  unfold createJSONFile
  cases hm : env.marshalOk data
  · exact ⟨"Error creating JSON data for " ++ filename, by simp⟩
  · rcases h with h | h
    · rw [hm] at h; exact absurd h (by decide)
    · exact ⟨"Error writing JSON file " ++ filename, by simp [h]⟩

/-- What two consecutive calls of `createJSONFile` followed by a report leave
behind: the longest run of files that could be written, and success exactly
when both could. -/
theorem writePair (env : Env) (o1 o2 : String × JSONData) (w : World)
    (report : World → World) (hrep : ∀ v, (report v).files = v.files) :
    (finalWorld (do
        let w1 ← createJSONFile env o1.2 o1.1 w
        let w2 ← createJSONFile env o2.2 o2.1 w1
        pure (report w2))).files = w.files ++ [o1, o2].takeWhile (attempt env) ∧
    Run.succeeded (do
        let w1 ← createJSONFile env o1.2 o1.1 w
        let w2 ← createJSONFile env o2.2 o2.1 w1
        pure (report w2)) = [o1, o2].all (attempt env) := by
  cases h1 : attempt env o1
  · obtain ⟨msg, e⟩ := createJSONFile_of_not_attempt env o1.2 o1.1 w h1
    rw [e]
    simp [List.takeWhile, h1, finalWorld, Run.succeeded, bind, Except.bind]
  · rw [createJSONFile_of_attempt env o1.2 o1.1 w h1]
    cases h2 : attempt env o2
    · obtain ⟨msg, e⟩ := createJSONFile_of_not_attempt env o2.2 o2.1
        { w with files := w.files ++ [(o1.1, o1.2)] } h2
      simp only [bind, Except.bind]
      rw [e]
      simp [List.takeWhile, h1, h2, finalWorld, Run.succeeded]
    · simp only [bind, Except.bind]
      rw [createJSONFile_of_attempt env o2.2 o2.1 _ h2]
      simp [List.takeWhile, h1, h2, finalWorld, Run.succeeded, pure, Except.pure, hrep]

theorem simpleFiles_spec (env : Env) (recs : Catalog) (w : World) :
    (finalWorld (createSimpleMapsFiles env recs w)).files
        = w.files ++ (simpleOutputs recs).takeWhile (attempt env) ∧
    (createSimpleMapsFiles env recs w).succeeded = (simpleOutputs recs).all (attempt env) :=
  writePair env
    (extensionToLangFile, .nameLists (createSimpleMaps recs).extensionToLang)
    (langToExtensionFile, .nameLists (createSimpleMaps recs).langToExtension) w
    (fun v => { v with stdout := v.stdout ++
      ["Simple mapping JSON files created: " ++ extensionToLangFile ++ " and "
        ++ langToExtensionFile ++ "\n"] })
    (fun _ => rfl)

theorem detailedFiles_spec (env : Env) (recs : Catalog) (w : World) :
    (finalWorld (createDetailedMapsFiles env recs w)).files
        = w.files ++ (detailedOutputs recs).takeWhile (attempt env) ∧
    (createDetailedMapsFiles env recs w).succeeded
        = (detailedOutputs recs).all (attempt env) :=
  writePair env
    (detailedExtToLangFile, .nested (createDetailedMaps recs).detailedExtToLang)
    (detailedLangToExtFile, .records (createDetailedMaps recs).detailedLangToExt) w
    (fun v => { v with stdout := v.stdout ++
      ["Detailed mapping JSON files created: " ++ detailedExtToLangFile ++ " and "
        ++ detailedLangToExtFile ++ "\n"] })
    (fun _ => rfl)

/-- Fetching writes no file. -/
theorem fetchYAML_files (env : Env) (w : World) : (fetchYAML env w).2.files = w.files := by
  unfold fetchYAML
  cases env.httpGet <;> rfl

/-- Once the data is fetched and parsed, `main` runs the builder the flag
selects. -/
theorem main_eq (env : Env) (assignments : List (String × Bool)) (w : World) (data : Bytes)
    (recs : Catalog) (hf : (fetchYAML env w).1 = .ok data)
    (hu : env.unmarshal data = .ok recs) :
    main env assignments w
      = if parseDetailed assignments then createDetailedMapsFiles env recs (fetchYAML env w).2
        else createSimpleMapsFiles env recs (fetchYAML env w).2 := by
  unfold main
  cases hp : fetchYAML env w with
  | mk r w1 =>
    rw [hp] at hf
    simp only at hf
    subst hf
    simp [hu]

/-! ## Main theorems -/

/-- C1. Coverage of the simple extension index: for every record of the input,
each of its extensions, once normalized, and each of its filenames, verbatim,
is a key of the `extensionToLang` map built by `createSimpleMaps`, and the
list stored under that key contains the record's language name.  (It holds
for every iteration sequence, so in particular when the names are unique.) -/
theorem simple_ext_coverage (recs : Catalog) (n : String) (d : LanguageData)
    (h : (n, d) ∈ recs) :
    (∀ e ∈ d.Extensions,
        ∃ l, (createSimpleMaps recs).extensionToLang (normalizeExt e) = some l ∧ n ∈ l) ∧
    (∀ f ∈ d.Filenames,
        ∃ l, (createSimpleMaps recs).extensionToLang f = some l ∧ n ∈ l) := by
  have key : ∀ t, Claims d t →
      ∃ l, (createSimpleMaps recs).extensionToLang t = some l ∧ n ∈ l := by
    intro t hc
    refine ⟨namesFor recs t, ?_, (mem_namesFor recs t n).2 ⟨d, h, hc⟩⟩
    rw [GoMap.eq_some_iff]
    exact ⟨(simple_ext_hasKey recs t).2 ⟨(n, d), h, hc⟩, simple_ext_index recs t⟩
  exact ⟨fun e he => key _ (Or.inl ⟨e, he, rfl⟩), fun f hf => key _ (Or.inr hf)⟩

/-- Coverage on the example catalog: the header extension of `C` and the filename of `C++`. -/
theorem simple_ext_coverage_witness :
    (∃ l, (createSimpleMaps exampleCatalog).extensionToLang ".h" = some l ∧ "C" ∈ l) ∧
    (∃ l, (createSimpleMaps exampleCatalog).extensionToLang "Makefile.cxx" = some l
        ∧ "C++" ∈ l) :=
  ⟨(simple_ext_coverage exampleCatalog "C" (mkLang [".c", "h"] []) (by decide)).1 "h"
      (by decide),
   (simple_ext_coverage exampleCatalog "C++" (mkLang [".cpp", ".h"] ["Makefile.cxx"])
      (by decide)).2 "Makefile.cxx" (by decide)⟩

/-- C2. Normalization rule: an entry of `Extensions` that does not begin with
a period becomes `"." ++ e`, one that begins with a period stays as it is; so
the result always begins with a period and normalizing twice changes nothing.
In the maps built from a name-unique input, the tokens recorded for a record
are its extensions so normalized followed by its filenames unchanged, both
in `createSimpleMaps` and in `createDetailedMaps`. -/
theorem normalization_rule (recs : Catalog) (hu : NamesUnique recs) (n : String)
    (d : LanguageData) (h : (n, d) ∈ recs) :
    (∀ e : String,
        (HasPrefix e "." = true ↔ ∃ rest, e.data = '.' :: rest) ∧
        (HasPrefix e "." = false → normalizeExt e = "." ++ e) ∧
        (HasPrefix e "." = true → normalizeExt e = e) ∧
        HasPrefix (normalizeExt e) "." = true ∧
        normalizeExt (normalizeExt e) = normalizeExt e) ∧
    (createSimpleMaps recs).langToExtension.index n
      = d.Extensions.map normalizeExt ++ d.Filenames ∧
    (∀ t, n ∈ (createSimpleMaps recs).extensionToLang.index t
        ↔ (∃ e ∈ d.Extensions, normalizeExt e = t) ∨ t ∈ d.Filenames) ∧
    (∀ t, (createDetailedMaps recs).detailedExtToLang.index2 t n = some d
        ↔ (∃ e ∈ d.Extensions, normalizeExt e = t) ∨ t ∈ d.Filenames) := by
  refine ⟨fun e => ⟨HasPrefix_dot e, normalizeExt_of_not_dot e, normalizeExt_of_dot e,
    HasPrefix_normalizeExt e, normalizeExt_idem e⟩, ?_, ?_, ?_⟩
  · rw [simple_lang_index, tokensFor_unique recs hu n d h]; rfl
  · intro t
    rw [simple_ext_index, mem_namesFor]
    constructor
    · rintro ⟨d2, h2, hc⟩
      have e := (detailed_lang_eq_some recs hu n d2).2 h2
      rw [(detailed_lang_eq_some recs hu n d).2 h] at e
      cases e; exact hc
    · intro hc; exact ⟨d, h, hc⟩
  · intro t
    rw [detailed_index2_eq_some recs hu]
    exact ⟨fun x => x.2, fun hc => ⟨h, hc⟩⟩

/-- Normalization on the example catalog: `h` is stored as `.h`, `.cpp` and the filename stay as they are. -/
theorem normalization_rule_witness :
    (createSimpleMaps exampleCatalog).langToExtension.index "C" = [".c", ".h"] ∧
    (createSimpleMaps exampleCatalog).langToExtension.index "C++"
      = [".cpp", ".h", "Makefile.cxx"] :=
  ⟨(normalization_rule exampleCatalog (by decide) "C" (mkLang [".c", "h"] [])
      (by decide)).2.1,
   (normalization_rule exampleCatalog (by decide) "C++"
      (mkLang [".cpp", ".h"] ["Makefile.cxx"]) (by decide)).2.1⟩

/-- C3. Exact content of the simple language index: for a name-unique input
and a record with at least one token, `langToExtension[name]` built by
`createSimpleMaps` is the record's normalized extensions in their order
followed by its filenames in their order; nothing is dropped or
deduplicated, so its length is `len(Extensions) + len(Filenames)`; an empty
filename is kept as `""` and an empty extension is kept as `"."`. -/
theorem simple_lang_exact (recs : Catalog) (hu : NamesUnique recs) (n : String)
    (d : LanguageData) (h : (n, d) ∈ recs)
    (htok : d.Extensions ≠ [] ∨ d.Filenames ≠ []) :
    ∃ l, (createSimpleMaps recs).langToExtension n = some l ∧
      l = d.Extensions.map normalizeExt ++ d.Filenames ∧
      l.length = d.Extensions.length + d.Filenames.length ∧
      (∀ x, l.count x
          = (d.Extensions.map normalizeExt).count x + d.Filenames.count x) ∧
      normalizeExt "" = "." ∧
      ("" ∈ d.Extensions → "." ∈ l) ∧
      ("" ∈ d.Filenames → "" ∈ l) := by
  have hne : recordTokens d ≠ [] := by
    intro e
    obtain ⟨h1, h2⟩ := (recordTokens_eq_nil d).1 e
    rcases htok with h3 | h3
    · exact h3 h1
    · exact h3 h2
  refine ⟨recordTokens d, ?_, rfl, by simp [recordTokens], ?_, by decide, ?_, ?_⟩
  · rw [GoMap.eq_some_iff, simple_lang_index, tokensFor_unique recs hu n d h]
    exact ⟨(simple_lang_hasKey recs n).2 ⟨(n, d), h, rfl, hne⟩, rfl⟩
  · intro x; simp [recordTokens]
  · intro he
    exact List.mem_append_left _ (List.mem_map.2 ⟨"", he, by decide⟩)
  · intro hf
    exact List.mem_append_right _ hf

/-- Exact content for a record with empty strings and a repeated token: all five tokens are kept. -/
theorem simple_lang_exact_witness :
    ∃ l, (createSimpleMaps oddCatalog).langToExtension "Odd" = some l ∧
      l = [".", ".x", ".x", "", ".x"] ∧ l.length = 5 := by
  obtain ⟨l, h1, h2, h3, _⟩ :=
    simple_lang_exact oddCatalog (by decide) "Odd" (mkLang ["", "x", ".x"] ["", ".x"])
      (by decide) (by decide)
  exact ⟨l, h1, h2, h3⟩

/-- C4. Soundness of the simple indexes: every key of `extensionToLang` built
by `createSimpleMaps` is a token claimed by some input record, the list under
it is non-empty and every name in it is the name of an input record that
claims the token; every key of `langToExtension` is the name of an input
record with at least one extension or filename. -/
theorem simple_soundness (recs : Catalog) :
    (∀ t l, (createSimpleMaps recs).extensionToLang t = some l →
        l ≠ [] ∧ (∃ r ∈ recs, Claims r.2 t) ∧
        ∀ n ∈ l, ∃ d, (n, d) ∈ recs ∧ Claims d t) ∧
    (∀ n l, (createSimpleMaps recs).langToExtension n = some l →
        ∃ d, (n, d) ∈ recs ∧ (d.Extensions ≠ [] ∨ d.Filenames ≠ [])) :=
  ⟨simple_ext_sound recs, simple_lang_sound recs⟩

/-- Soundness on the example catalog: the header key holds both claimants, unclaimed tokens and token-less languages are absent. -/
theorem simple_soundness_witness :
    (createSimpleMaps exampleCatalog).extensionToLang ".h" = some ["C", "C++"] ∧
    ["C", "C++"] ≠ [] ∧
    (∃ r ∈ exampleCatalog, Claims r.2 ".h") ∧
    (createSimpleMaps exampleCatalog).extensionToLang ".txt" = none ∧
    (createSimpleMaps exampleCatalog).langToExtension "Text" = none :=
  have h : (createSimpleMaps exampleCatalog).extensionToLang ".h" = some ["C", "C++"] := by
    decide
  ⟨h, ((simple_soundness exampleCatalog).1 ".h" _ h).1,
    ((simple_soundness exampleCatalog).1 ".h" _ h).2.1, by decide, by decide⟩

/-- C5. Order of names under a shared token: `extensionToLang[t]` built by
`createSimpleMaps` is the concatenation, in iteration order of the records,
of each claiming record's name (once per time the record lists the token);
the key exists exactly when that list is non-empty.  When no record lists the
token twice it is the list of names of the claiming records in iteration
order.  If two languages both claim `t`, both names are in the list, and with
unique names every occurrence of the earlier-iterated name comes before
every occurrence of the later one. -/
theorem simple_ext_order (recs : Catalog) (t : String) :
    (createSimpleMaps recs).extensionToLang.index t
      = recs.flatMap (fun r => List.replicate ((recordTokens r.2).count t) r.1) ∧
    ((createSimpleMaps recs).extensionToLang.hasKey t = true
      ↔ (createSimpleMaps recs).extensionToLang.index t ≠ []) ∧
    ((∀ r ∈ recs, (recordTokens r.2).count t ≤ 1) →
      (createSimpleMaps recs).extensionToLang.index t
        = (recs.filter (fun r => decide (t ∈ recordTokens r.2))).map Prod.fst) ∧
    (∀ a b c n1 d1 n2 d2, recs = a ++ (n1, d1) :: (b ++ (n2, d2) :: c) →
      NamesUnique recs → Claims d1 t → Claims d2 t →
      ∃ l1 l2, (createSimpleMaps recs).extensionToLang t = some (l1 ++ l2) ∧
        n1 ∈ l1 ∧ n2 ∉ l1 ∧ n2 ∈ l2 ∧ n1 ∉ l2) := by
  refine ⟨simple_ext_index recs t, ?_, ?_, ?_⟩
  · rw [simple_ext_hasKey, simple_ext_index]
    constructor
    · rintro ⟨⟨rn, rd⟩, hr, hc⟩
      exact List.ne_nil_of_mem ((mem_namesFor recs t rn).2 ⟨rd, hr, hc⟩)
    · intro hne
      obtain ⟨n, hn⟩ := List.exists_mem_of_ne_nil _ hne
      obtain ⟨d, hd, hc⟩ := (mem_namesFor recs t n).1 hn
      exact ⟨(n, d), hd, hc⟩
  · intro h
    rw [simple_ext_index]
    exact namesFor_filter recs t h
  · intro a b c n1 d1 n2 d2 e hu hc1 hc2
    refine ⟨namesFor (a ++ [(n1, d1)] ++ b) t, namesFor ((n2, d2) :: c) t, ?_, ?_, ?_, ?_, ?_⟩
    · rw [GoMap.eq_some_iff, simple_ext_index, ← namesFor_append]
      refine ⟨(simple_ext_hasKey recs t).2 ⟨(n1, d1), by simp [e], hc1⟩, ?_⟩
      rw [e]; simp
    · exact (mem_namesFor _ t n1).2 ⟨d1, by simp, hc1⟩
    · intro hm
      obtain ⟨d, hd, _⟩ := (mem_namesFor _ t n2).1 hm
      have hu2 : NamesUnique ((a ++ [(n1, d1)] ++ b) ++ ((n2, d2) :: c)) := by
        rw [e] at hu; simpa using hu
      unfold NamesUnique at hu2
      rw [List.map_append, List.nodup_append] at hu2
      exact hu2.2.2 (List.mem_map.2 ⟨(n2, d), hd, rfl⟩) (by simp)
    · exact (mem_namesFor _ t n2).2 ⟨d2, by simp, hc2⟩
    · intro hm
      obtain ⟨d, hd, _⟩ := (mem_namesFor _ t n1).1 hm
      have hu2 : NamesUnique ((a ++ [(n1, d1)] ++ b) ++ ((n2, d2) :: c)) := by
        rw [e] at hu; simpa using hu
      unfold NamesUnique at hu2
      rw [List.map_append, List.nodup_append] at hu2
      exact hu2.2.2 (by simp) (List.mem_map.2 ⟨(n1, d), hd, rfl⟩)

/-- Order on the example catalog and on its reverse: the earlier-iterated name comes first. -/
theorem simple_ext_order_witness :
    (createSimpleMaps exampleCatalog).extensionToLang.index ".h" = ["C", "C++"] ∧
    (createSimpleMaps exampleCatalog.reverse).extensionToLang.index ".h" = ["C++", "C"] :=
  ⟨((simple_ext_order exampleCatalog ".h").2.2.1 (by decide)).trans (by decide),
   ((simple_ext_order exampleCatalog.reverse ".h").2.2.1 (by decide)).trans (by decide)⟩

/-- C6. The detailed language index is the identity projection: for a
name-unique input, `detailedLangToExt` built by `createDetailedMaps` maps a
name to a record exactly when that pair is an entry of the input, so its
keys are exactly the input names and each value is the complete, unmodified
record (its `Extensions` not normalized), also for a language without
extensions and filenames. -/
theorem detailed_lang_identity (recs : Catalog) (hu : NamesUnique recs) :
    (∀ n d, (createDetailedMaps recs).detailedLangToExt n = some d ↔ (n, d) ∈ recs) ∧
    (∀ n, (createDetailedMaps recs).detailedLangToExt.hasKey n = true
        ↔ n ∈ recs.map Prod.fst) := by
  refine ⟨fun n d => detailed_lang_eq_some recs hu n d, fun n => ?_⟩
  simp only [GoMap.hasKey, Option.isSome_iff_exists, detailed_lang_eq_some recs hu,
    List.mem_map, Prod.exists, exists_and_right, exists_eq_right]

/-- Identity projection on the example catalog, also for the token-less `Text`. -/
theorem detailed_lang_identity_witness :
    (createDetailedMaps exampleCatalog).detailedLangToExt "C"
      = some (mkLang [".c", "h"] []) ∧
    (createDetailedMaps exampleCatalog).detailedLangToExt "Text" = some (mkLang [] []) ∧
    ¬ (createDetailedMaps exampleCatalog).detailedLangToExt.hasKey "Go" = true :=
  ⟨((detailed_lang_identity exampleCatalog (by decide)).1 _ _).2 (by decide),
   ((detailed_lang_identity exampleCatalog (by decide)).1 _ _).2 (by decide),
   fun h => absurd (((detailed_lang_identity exampleCatalog (by decide)).2 "Go").1 h)
    (by decide)⟩

/-- C7. The detailed extension index holds full records: for a name-unique
input, every record and every token it claims, `detailedExtToLang[t][name]`
built by `createDetailedMaps` exists and is that language's entire input
record; conversely every inner entry `detailedExtToLang[t][n] = r` comes from
an input entry `(n, r)` whose record claims `t`. -/
theorem detailed_ext_full_records (recs : Catalog) (hu : NamesUnique recs) :
    (∀ n d t, (n, d) ∈ recs → Claims d t →
        ∃ inner, (createDetailedMaps recs).detailedExtToLang t = some inner
          ∧ inner n = some d) ∧
    (∀ t inner n r, (createDetailedMaps recs).detailedExtToLang t = some inner →
        inner n = some r → (n, r) ∈ recs ∧ Claims r t) := by
  constructor
  · intro n d t h hc
    exact (GoMap.index2_eq_some_iff _ t n d).1
      ((detailed_index2_eq_some recs hu t n d).2 ⟨h, hc⟩)
  · intro t inner n r h1 h2
    exact (detailed_index2_eq_some recs hu t n r).1
      ((GoMap.index2_eq_some_iff _ t n r).2 ⟨inner, h1, h2⟩)

/-- Full record of `C` under the header token in the example catalog. -/
theorem detailed_ext_full_records_witness :
    ∃ inner, (createDetailedMaps exampleCatalog).detailedExtToLang ".h" = some inner
      ∧ inner "C" = some (mkLang [".c", "h"] []) :=
  (detailed_ext_full_records exampleCatalog (by decide)).1 "C" (mkLang [".c", "h"] []) ".h"
    (by decide) (Or.inl ⟨"h", by decide, by decide⟩)

/-- C8. Round-trip of names through the detailed extension index: a name is a
key of some inner map of `detailedExtToLang` built by `createDetailedMaps`
exactly when it is the name of an input record with at least one extension
or filename. -/
theorem detailed_names_roundtrip (recs : Catalog) (n : String) :
    (∃ t inner, (createDetailedMaps recs).detailedExtToLang t = some inner
        ∧ (inner n).isSome = true)
      ↔ ∃ d, (n, d) ∈ recs ∧ (d.Extensions ≠ [] ∨ d.Filenames ≠ []) := by
  constructor
  · rintro ⟨t, inner, h1, h2⟩
    obtain ⟨d, hd, hc⟩ := (detailed_index2_isSome recs t n).1
      ((GoMap.index2_isSome_iff _ t n).2 ⟨inner, h1, h2⟩)
    exact ⟨d, hd, (exists_claims_iff d).1 ⟨t, hc⟩⟩
  · rintro ⟨d, hd, hne⟩
    obtain ⟨t, hc⟩ := (exists_claims_iff d).2 hne
    exact ⟨t, (GoMap.index2_isSome_iff _ t n).1
      ((detailed_index2_isSome recs t n).2 ⟨d, hd, hc⟩)⟩

/-- Round-trip on the example catalog: `C++` is recovered, the token-less `Text` is not. -/
theorem detailed_names_roundtrip_witness :
    (∃ t inner, (createDetailedMaps exampleCatalog).detailedExtToLang t = some inner
        ∧ (inner "C++").isSome = true) ∧
    ¬ (∃ t inner, (createDetailedMaps exampleCatalog).detailedExtToLang t = some inner
        ∧ (inner "Text").isSome = true) :=
  ⟨(detailed_names_roundtrip exampleCatalog "C++").2
      ⟨mkLang [".cpp", ".h"] ["Makefile.cxx"], by decide, Or.inl (by decide)⟩,
   fun h => by
    obtain ⟨d, hd, hne⟩ := (detailed_names_roundtrip exampleCatalog "Text").1 h
    have e : d = mkLang [] [] := by
      simp [exampleCatalog] at hd
      exact hd
    subst e
    simp [mkLang] at hne⟩

/-- C9. The simple and the detailed extension index agree: they have the same
token keys, and for every token the keys of `detailedExtToLang[t]` are
exactly the names occurring in the simple list `extensionToLang[t]`. -/
theorem simple_detailed_agree (recs : Catalog) (t : String) :
    ((createSimpleMaps recs).extensionToLang.hasKey t
      = (createDetailedMaps recs).detailedExtToLang.hasKey t) ∧
    (∀ n, (∃ inner, (createDetailedMaps recs).detailedExtToLang t = some inner
            ∧ (inner n).isSome = true)
        ↔ n ∈ (createSimpleMaps recs).extensionToLang.index t) ∧
    (∀ n, (∃ inner, (createDetailedMaps recs).detailedExtToLang t = some inner
            ∧ (inner n).isSome = true)
        ↔ ∃ l, (createSimpleMaps recs).extensionToLang t = some l ∧ n ∈ l) := by
  have h2 : ∀ n, (∃ inner, (createDetailedMaps recs).detailedExtToLang t = some inner
            ∧ (inner n).isSome = true)
        ↔ n ∈ (createSimpleMaps recs).extensionToLang.index t := by
    intro n
    rw [← GoMap.index2_isSome_iff, detailed_index2_isSome, simple_ext_index, mem_namesFor]
  refine ⟨?_, h2, ?_⟩
  · rw [Bool.eq_iff_iff, simple_ext_hasKey, detailed_ext_hasKey]
  · intro n
    rw [h2]
    constructor
    · intro hn
      cases hl : (createSimpleMaps recs).extensionToLang t with
      | none => simp [GoMap.index, hl] at hn
      | some l => exact ⟨l, rfl, by simpa [GoMap.index, hl] using hn⟩
    · rintro ⟨l, hl, hn⟩
      simpa [GoMap.index, hl] using hn

/-- Agreement on a catalog where one language lists a token three times. -/
theorem simple_detailed_agree_witness :
    (createDetailedMaps oddCatalog).detailedExtToLang.hasKey ".x" = true ∧
    (∃ inner, (createDetailedMaps oddCatalog).detailedExtToLang ".x" = some inner
        ∧ (inner "Odd").isSome = true) :=
  ⟨(simple_detailed_agree oddCatalog ".x").1.symm.trans (by decide),
   ((simple_detailed_agree oddCatalog ".x").2.1 "Odd").2 (by decide)⟩

/-- C10. A language without tokens contributes only its identity entry: in a
name-unique input, a record whose `Extensions` and `Filenames` are both
empty has no key in the simple `langToExtension`, its name occurs in no list
of the simple `extensionToLang` and is a key of no inner map of
`detailedExtToLang`; both simple maps and the detailed extension index are
the ones built from the input without that record; and `detailedLangToExt`
maps its name to its record. -/
theorem tokenless_language (a b : Catalog) (n : String) (d : LanguageData)
    (hu : NamesUnique (a ++ (n, d) :: b))
    (he : d.Extensions = []) (hf : d.Filenames = []) :
    (createSimpleMaps (a ++ (n, d) :: b)).langToExtension n = none ∧
    (∀ t l, (createSimpleMaps (a ++ (n, d) :: b)).extensionToLang t = some l → n ∉ l) ∧
    (∀ t inner, (createDetailedMaps (a ++ (n, d) :: b)).detailedExtToLang t = some inner →
        inner n = none) ∧
    createSimpleMaps (a ++ (n, d) :: b) = createSimpleMaps (a ++ b) ∧
    (createDetailedMaps (a ++ (n, d) :: b)).detailedExtToLang
      = (createDetailedMaps (a ++ b)).detailedExtToLang ∧
    (createDetailedMaps (a ++ (n, d) :: b)).detailedLangToExt n = some d := by
  have hmem : (n, d) ∈ a ++ (n, d) :: b := by simp
  have hno : ∀ t, ¬ Claims d t := fun t hc =>
    ((exists_claims_iff d).1 ⟨t, hc⟩).elim (fun h => h he) (fun h => h hf)
  have hlang := (detailed_lang_eq_some _ hu n d).2 hmem
  have honly : ∀ d2, (n, d2) ∈ a ++ (n, d) :: b → d2 = d := by
    intro d2 h2
    have e := (detailed_lang_eq_some _ hu n d2).2 h2
    rw [hlang] at e
    exact (Option.some.inj e).symm
  refine ⟨?_, ?_, ?_, ?_, ?_, hlang⟩
  · cases hl : (createSimpleMaps (a ++ (n, d) :: b)).langToExtension n with
    | none => rfl
    | some l =>
      obtain ⟨d2, h2, hne⟩ := simple_lang_sound _ n l hl
      rw [honly d2 h2] at hne
      exact (hne.elim (fun h => h he) (fun h => h hf)).elim
  · intro t l hl hn
    obtain ⟨d2, h2, hc⟩ := (simple_ext_sound _ t l hl).2.2 n hn
    rw [honly d2 h2] at hc
    exact hno t hc
  · intro t inner h1
    cases h2 : inner n with
    | none => rfl
    | some r =>
      have := (detailed_index2_eq_some _ hu t n r).1
        ((GoMap.index2_eq_some_iff _ t n r).2 ⟨inner, h1, h2⟩)
      rw [honly r this.1] at this
      exact (hno t this.2).elim
  · simp only [createSimpleMaps, List.foldl_append, List.foldl_cons]
    rw [simpleRecord_of_no_tokens _ (n, d) he hf]
  · have ht : recordTokens d = [] := (recordTokens_eq_nil d).2 ⟨he, hf⟩
    unfold createDetailedMaps
    rw [foldRecordD_ext, foldRecordD_ext]
    simp only [List.foldl_append, List.foldl_cons, ht, List.foldl_nil]

/-- The token-less `Text` of the example catalog contributes only its identity entry. -/
theorem tokenless_language_witness :
    (createSimpleMaps exampleCatalog).langToExtension "Text" = none ∧
    createSimpleMaps exampleCatalog
      = createSimpleMaps [("C", mkLang [".c", "h"] []),
          ("C++", mkLang [".cpp", ".h"] ["Makefile.cxx"])] ∧
    (createDetailedMaps exampleCatalog).detailedLangToExt "Text" = some (mkLang [] []) :=
  have h := tokenless_language
    [("C", mkLang [".c", "h"] []), ("C++", mkLang [".cpp", ".h"] ["Makefile.cxx"])] []
    "Text" (mkLang [] []) (by decide) rfl rfl
  ⟨h.1, h.2.2.2.1, h.2.2.2.2.2⟩

/-- C16. The two simple indexes are mutual inverses with multiplicity: for
every input, name `n` and token `t`, `n` occurs in `extensionToLang[t]` as
often as `t` occurs in `langToExtension[n]` (a missing key read as the empty
list); in particular `n` is in `extensionToLang[t]` exactly when `t` is in
`langToExtension[n]`. -/
theorem simple_indexes_inverse (recs : Catalog) (n t : String) :
    ((createSimpleMaps recs).extensionToLang.index t).count n
      = ((createSimpleMaps recs).langToExtension.index n).count t ∧
    (n ∈ (createSimpleMaps recs).extensionToLang.index t
      ↔ t ∈ (createSimpleMaps recs).langToExtension.index n) := by
  have h : ((createSimpleMaps recs).extensionToLang.index t).count n
      = ((createSimpleMaps recs).langToExtension.index n).count t := by
    rw [simple_ext_index, simple_lang_index, count_namesFor]
  refine ⟨h, ?_⟩
  rw [← List.count_pos_iff, ← List.count_pos_iff, h]

/-- Inverse counts on a catalog where one language lists a token three times. -/
theorem simple_indexes_inverse_witness :
    ((createSimpleMaps oddCatalog).extensionToLang.index ".x").count "Odd" = 3 ∧
    ((createSimpleMaps oddCatalog).langToExtension.index "Odd").count ".x" = 3 :=
  have h : ((createSimpleMaps oddCatalog).extensionToLang.index ".x").count "Odd" = 3 := by
    decide
  ⟨h, (simple_indexes_inverse oddCatalog "Odd" ".x").1.symm.trans h⟩

/-- C18. Shape of the extension-index keys: every key of the simple
`extensionToLang`, and of `detailedExtToLang`, that does not begin with a
period is an entry of some record's `Filenames`; every key that comes from
an `Extensions` list begins with a period and is not empty; so the empty
string is a key only through a `Filenames` entry. -/
theorem key_shape (recs : Catalog) (t : String) :
    ((createSimpleMaps recs).extensionToLang.hasKey t = true → HasPrefix t "." = false →
        ∃ r ∈ recs, t ∈ r.2.Filenames) ∧
    ((createDetailedMaps recs).detailedExtToLang.hasKey t = true →
        HasPrefix t "." = false → ∃ r ∈ recs, t ∈ r.2.Filenames) ∧
    (∀ e : String, HasPrefix (normalizeExt e) "." = true ∧ normalizeExt e ≠ "") ∧
    ((createSimpleMaps recs).extensionToLang.hasKey "" = true →
        ∃ r ∈ recs, "" ∈ r.2.Filenames) ∧
    ((createDetailedMaps recs).detailedExtToLang.hasKey "" = true →
        ∃ r ∈ recs, "" ∈ r.2.Filenames) := by
  have hs : ∀ k, (createSimpleMaps recs).extensionToLang.hasKey k = true →
      HasPrefix k "." = false → ∃ r ∈ recs, k ∈ r.2.Filenames := by
    intro k hk hp
    obtain ⟨r, hr, hc⟩ := (simple_ext_hasKey recs k).1 hk
    exact ⟨r, hr, claims_without_dot r.2 k hc hp⟩
  have hd : ∀ k, (createDetailedMaps recs).detailedExtToLang.hasKey k = true →
      HasPrefix k "." = false → ∃ r ∈ recs, k ∈ r.2.Filenames := by
    intro k hk hp
    obtain ⟨r, hr, hc⟩ := (detailed_ext_hasKey recs k).1 hk
    exact ⟨r, hr, claims_without_dot r.2 k hc hp⟩
  refine ⟨hs t, hd t, fun e => ⟨HasPrefix_normalizeExt e, ?_⟩,
    fun h => hs "" h (by decide), fun h => hd "" h (by decide)⟩
  intro he
  have := HasPrefix_normalizeExt e
  rw [he] at this
  exact absurd this (by decide)

/-- Key shape on the catalog with malformed tokens: the empty key is there,
and it comes from a `Filenames` list. -/
theorem key_shape_witness :
    (createSimpleMaps oddCatalog).extensionToLang.hasKey "" = true ∧
    ∃ r ∈ oddCatalog, "" ∈ r.2.Filenames :=
  ⟨by decide, (key_shape oddCatalog "").2.2.2.1 (by decide)⟩

/-- Counterexample to C11 as stated.  The Go map with the entries `C` and
`C++`, both listing `.h`, can be visited by `range` in either order; the two
runs store different lists under `.h`, so the two outputs of
`createSimpleMaps` on the same collection are not identical. -/
theorem rerun_counterexample :
    NamesUnique sharedCatalog ∧ sharedCatalog.Perm sharedCatalog.reverse ∧
    (createSimpleMaps sharedCatalog).extensionToLang ".h" = some ["C", "C++"] ∧
    (createSimpleMaps sharedCatalog.reverse).extensionToLang ".h" = some ["C++", "C"] ∧
    createSimpleMaps sharedCatalog ≠ createSimpleMaps sharedCatalog.reverse := by
  refine ⟨by decide, (List.reverse_perm _).symm, by decide, by decide, ?_⟩
  intro h
  have h2 : (createSimpleMaps sharedCatalog).extensionToLang ".h"
      = (createSimpleMaps sharedCatalog.reverse).extensionToLang ".h" := by rw [h]
  have h3 : (createSimpleMaps sharedCatalog).extensionToLang ".h" = some ["C", "C++"] := by
    decide
  have h4 : (createSimpleMaps sharedCatalog.reverse).extensionToLang ".h"
      = some ["C++", "C"] := by decide
  rw [h3, h4] at h2
  exact absurd h2 (by decide)

/-- C11, amended.  For two runs on the same name-unique collection, whatever
order each run visits it in: `langToExtension` is identical, both maps of
`createDetailedMaps` are identical, and `extensionToLang[t]` is identical
whenever both runs visit the records that claim `t` in the same relative
order; in particular two runs that visit the collection in the same order
yield identical outputs.  Nothing but the iteration order enters the
result. -/
theorem rerun_deterministic (recs1 recs2 : Catalog) (hu : NamesUnique recs1)
    (hp : recs1.Perm recs2) :
    (createSimpleMaps recs1).langToExtension = (createSimpleMaps recs2).langToExtension ∧
    createDetailedMaps recs1 = createDetailedMaps recs2 ∧
    (∀ t, recs1.filter (fun r => decide (t ∈ recordTokens r.2))
          = recs2.filter (fun r => decide (t ∈ recordTokens r.2)) →
        (createSimpleMaps recs1).extensionToLang t
          = (createSimpleMaps recs2).extensionToLang t) ∧
    (recs1 = recs2 → createSimpleMaps recs1 = createSimpleMaps recs2) := by
  refine ⟨simple_lang_perm recs1 recs2 hu hp, ?_, ?_, fun h => by rw [h]⟩
  · have h1 := detailed_ext_perm recs1 recs2 hu hp
    have h2 := detailed_lang_perm recs1 recs2 hu hp
    cases hc1 : createDetailedMaps recs1
    cases hc2 : createDetailedMaps recs2
    rw [hc1, hc2] at h1 h2
    simp only at h1 h2
    rw [h1, h2]
  · intro t hf
    apply simple_ext_congr
    rw [namesFor_filter_claims recs1, namesFor_filter_claims recs2, hf]

/-- Two runs on the example catalog, the second visiting the token-less
`Text` first: every claimed token is visited in the same relative order, and
the list under the shared header token is the same. -/
theorem rerun_deterministic_witness :
    (createSimpleMaps exampleCatalog).extensionToLang ".h"
      = (createSimpleMaps [("Text", mkLang [] []), ("C", mkLang [".c", "h"] []),
          ("C++", mkLang [".cpp", ".h"] ["Makefile.cxx"])]).extensionToLang ".h" :=
  (rerun_deterministic exampleCatalog
    [("Text", mkLang [] []), ("C", mkLang [".c", "h"] []),
      ("C++", mkLang [".cpp", ".h"] ["Makefile.cxx"])]
    (by decide) (by decide)).2.2.1 ".h" (by decide)

/-- C15. Independence from iteration order: for two iteration orders of the
same name-unique input, `createSimpleMaps` builds the same `langToExtension`,
`createDetailedMaps` builds the same `detailedExtToLang` and the same
`detailedLangToExt`, and the two `extensionToLang` maps have the same keys,
the list under each key being a permutation of the other. -/
theorem iteration_order_independence (recs1 recs2 : Catalog) (hu : NamesUnique recs1)
    (hp : recs1.Perm recs2) :
    (createSimpleMaps recs1).langToExtension = (createSimpleMaps recs2).langToExtension ∧
    (createDetailedMaps recs1).detailedExtToLang
      = (createDetailedMaps recs2).detailedExtToLang ∧
    (createDetailedMaps recs1).detailedLangToExt
      = (createDetailedMaps recs2).detailedLangToExt ∧
    (∀ t, (createSimpleMaps recs1).extensionToLang.hasKey t
        = (createSimpleMaps recs2).extensionToLang.hasKey t) ∧
    (∀ t, ((createSimpleMaps recs1).extensionToLang.index t).Perm
        ((createSimpleMaps recs2).extensionToLang.index t)) ∧
    (∀ t l1, (createSimpleMaps recs1).extensionToLang t = some l1 →
        ∃ l2, (createSimpleMaps recs2).extensionToLang t = some l2 ∧ l1.Perm l2) := by
  refine ⟨simple_lang_perm recs1 recs2 hu hp, detailed_ext_perm recs1 recs2 hu hp,
    detailed_lang_perm recs1 recs2 hu hp, ?_, ?_, ?_⟩
  · intro t
    rw [Bool.eq_iff_iff, simple_ext_hasKey, simple_ext_hasKey]
    simp only [hp.mem_iff]
  · intro t
    rw [simple_ext_index, simple_ext_index]
    exact namesFor_perm hp t
  · intro t l1 h1
    obtain ⟨hne, rfl⟩ := (simple_ext_eq_some_iff recs1 t l1).1 h1
    have hperm := namesFor_perm hp t
    refine ⟨namesFor recs2 t, (simple_ext_eq_some_iff recs2 t _).2 ⟨?_, rfl⟩, hperm⟩
    intro e
    rw [e] at hperm
    exact hne hperm.eq_nil

/-- Independence on the example catalog and its reverse: the language index
is the same, the header list is a permutation. -/
theorem iteration_order_independence_witness :
    (createSimpleMaps exampleCatalog).langToExtension
      = (createSimpleMaps exampleCatalog.reverse).langToExtension ∧
    ((createSimpleMaps exampleCatalog).extensionToLang.index ".h").Perm
      ((createSimpleMaps exampleCatalog.reverse).extensionToLang.index ".h") :=
  have h := iteration_order_independence exampleCatalog exampleCatalog.reverse
    (by decide) (List.reverse_perm _).symm
  ⟨h.1, h.2.2.2.2.1 ".h"⟩

/-- C12. Worked scenario: for the input with `Go` (extensions `go`) and `C++`
(extensions `.h`, `.cpp`), whatever the other fields and whichever of the two
is visited first, `createSimpleMaps` builds the extension index
`.go ↦ [Go]`, `.h ↦ [C++]`, `.cpp ↦ [C++]` and the language index
`Go ↦ [.go]`, `C++ ↦ [.h, .cpp]`, and neither map has another key. -/
theorem worked_scenario (recs : Catalog) (dGo dCpp : LanguageData)
    (hGoE : dGo.Extensions = ["go"]) (hGoF : dGo.Filenames = [])
    (hCppE : dCpp.Extensions = [".h", ".cpp"]) (hCppF : dCpp.Filenames = [])
    (hp : recs.Perm [("Go", dGo), ("C++", dCpp)]) (k : String) :
    (createSimpleMaps recs).extensionToLang k
      = (if k = ".go" then some ["Go"]
         else if k = ".h" then some ["C++"]
         else if k = ".cpp" then some ["C++"]
         else none) ∧
    (createSimpleMaps recs).langToExtension k
      = (if k = "Go" then some [".go"]
         else if k = "C++" then some [".h", ".cpp"]
         else none) := by
  have hu : NamesUnique [("Go", dGo), ("C++", dCpp)] := by
    simp [NamesUnique]
  have hn1 : normalizeExt "go" = ".go" := by decide
  have hn2 : normalizeExt ".h" = ".h" := by decide
  have hn3 : normalizeExt ".cpp" = ".cpp" := by decide
  have hnames : namesFor [("Go", dGo), ("C++", dCpp)] k
      = List.replicate ([".go"].count k) "Go" ++ List.replicate ([".h", ".cpp"].count k) "C++" := by
    simp [namesFor, recordTokens, hGoE, hGoF, hCppE, hCppF, hn1, hn2, hn3]
  constructor
  · have hperm := namesFor_perm hp k
    by_cases h1 : k = ".go"
    · subst h1
      have e : namesFor [("Go", dGo), ("C++", dCpp)] ".go" = ["Go"] := by
        rw [hnames]; decide
      rw [e] at hperm
      rw [if_pos rfl, simple_ext_eq_some_iff, List.perm_singleton.1 hperm]
      exact ⟨by simp, rfl⟩
    · by_cases h2 : k = ".h"
      · subst h2
        have e : namesFor [("Go", dGo), ("C++", dCpp)] ".h" = ["C++"] := by
          rw [hnames]; decide
        rw [e] at hperm
        rw [if_neg h1, if_pos rfl, simple_ext_eq_some_iff, List.perm_singleton.1 hperm]
        exact ⟨by simp, rfl⟩
      · by_cases h3 : k = ".cpp"
        · subst h3
          have e : namesFor [("Go", dGo), ("C++", dCpp)] ".cpp" = ["C++"] := by
            rw [hnames]; decide
          rw [e] at hperm
          rw [if_neg h1, if_neg h2, if_pos rfl, simple_ext_eq_some_iff,
            List.perm_singleton.1 hperm]
          exact ⟨by simp, rfl⟩
        · have e : namesFor [("Go", dGo), ("C++", dCpp)] k = [] := by
            rw [hnames]
            simp [List.count_cons, List.count_nil, Ne.symm h1, Ne.symm h2, Ne.symm h3]
          rw [e] at hperm
          rw [if_neg h1, if_neg h2, if_neg h3]
          cases hE : (createSimpleMaps recs).extensionToLang k with
          | none => rfl
          | some l =>
            obtain ⟨hne, hl⟩ := (simple_ext_eq_some_iff recs k l).1 hE
            rw [hperm.eq_nil] at hl
            exact absurd hl hne
  · rw [simple_lang_perm recs _ ((NamesUnique_perm hp).2 hu) hp]
    apply Option.ext
    intro l
    rw [Option.mem_def, Option.mem_def, simple_lang_eq_some_iff _ hu]
    have hGoT : recordTokens dGo = [".go"] := by
      simp [recordTokens, hGoE, hGoF, hn1]
    have hCppT : recordTokens dCpp = [".h", ".cpp"] := by
      simp [recordTokens, hCppE, hCppF, hn2, hn3]
    have hne : ("C++" : String) ≠ "Go" := by decide
    by_cases h1 : k = "Go"
    · subst h1
      rw [if_pos rfl]
      constructor
      · rintro ⟨d, hd, _, rfl⟩
        rcases List.mem_cons.1 hd with e | hd
        · rw [(Prod.mk.inj e).2, hGoT]
        · rcases List.mem_cons.1 hd with e | hd
          · exact absurd (Prod.mk.inj e).1.symm hne
          · simp at hd
      · intro e
        exact ⟨dGo, by simp, by simp [hGoT], by rw [hGoT]; exact (Option.some.inj e).symm⟩
    · by_cases h2 : k = "C++"
      · subst h2
        rw [if_neg hne, if_pos rfl]
        constructor
        · rintro ⟨d, hd, _, rfl⟩
          rcases List.mem_cons.1 hd with e | hd
          · exact absurd (Prod.mk.inj e).1 hne
          · rcases List.mem_cons.1 hd with e | hd
            · rw [(Prod.mk.inj e).2, hCppT]
            · simp at hd
        · intro e
          exact ⟨dCpp, by simp, by simp [hCppT],
            by rw [hCppT]; exact (Option.some.inj e).symm⟩
      · rw [if_neg h1, if_neg h2]
        constructor
        · rintro ⟨d, hd, _, _⟩
          rcases List.mem_cons.1 hd with e | hd
          · exact absurd (Prod.mk.inj e).1 h1
          · rcases List.mem_cons.1 hd with e | hd
            · exact absurd (Prod.mk.inj e).1 h2
            · simp at hd
        · intro e
          exact absurd e (by simp)

/-- The scenario itself, visited in the order in which it is written. -/
theorem worked_scenario_witness :
    (createSimpleMaps scenarioCatalog).extensionToLang ".go" = some ["Go"] ∧
    (createSimpleMaps scenarioCatalog).langToExtension "C++" = some [".h", ".cpp"] ∧
    (createSimpleMaps scenarioCatalog).extensionToLang "go" = none :=
  ⟨(worked_scenario scenarioCatalog (mkLang ["go"] []) (mkLang [".h", ".cpp"] [])
      rfl rfl rfl rfl (List.Perm.refl _) ".go").1,
   (worked_scenario scenarioCatalog (mkLang ["go"] []) (mkLang [".h", ".cpp"] [])
      rfl rfl rfl rfl (List.Perm.refl _) "C++").2,
   (worked_scenario scenarioCatalog (mkLang ["go"] []) (mkLang [".h", ".cpp"] [])
      rfl rfl rfl rfl (List.Perm.refl _) "go").1⟩

/-- C17. Duplicates are kept in the simple index and collapsed in the
detailed one: for a name-unique input and a token `t`, the number of entries
of `detailedExtToLang[t]` is at most the length of `extensionToLang[t]`,
with equality exactly when no language lists `t` more than once.  A language
that lists both `h` and `.h` as extensions, or `.x` both as an extension and
as a filename, has its name twice in the simple list and a single entry in
the detailed inner map. -/
theorem duplicates_collapse (recs : Catalog) (hu : NamesUnique recs) (t : String) :
    Set.ncard {n | ((createDetailedMaps recs).detailedExtToLang.index2 t n).isSome = true}
      ≤ ((createSimpleMaps recs).extensionToLang.index t).length ∧
    (Set.ncard {n | ((createDetailedMaps recs).detailedExtToLang.index2 t n).isSome = true}
        = ((createSimpleMaps recs).extensionToLang.index t).length
      ↔ ∀ r ∈ recs, (recordTokens r.2).count t ≤ 1) ∧
    ((createSimpleMaps twiceCatalog).extensionToLang ".h" = some ["C", "C"] ∧
      ∃ inner, (createDetailedMaps twiceCatalog).detailedExtToLang ".h" = some inner ∧
        ∀ m, (inner m).isSome = true ↔ m = "C") ∧
    ((createSimpleMaps bothListsCatalog).extensionToLang ".x" = some ["X", "X"] ∧
      ∃ inner, (createDetailedMaps bothListsCatalog).detailedExtToLang ".x" = some inner ∧
        ∀ m, (inner m).isSome = true ↔ m = "X") := by
  have single : ∀ (name tok : String) (d : LanguageData), Claims d tok →
      ∃ inner, (createDetailedMaps [(name, d)]).detailedExtToLang tok = some inner ∧
        ∀ m, (inner m).isSome = true ↔ m = name := by
    intro name tok d hc
    have h1 : (createDetailedMaps [(name, d)]).detailedExtToLang.hasKey tok = true :=
      (detailed_ext_hasKey _ tok).2 ⟨(name, d), by simp, hc⟩
    cases hD : (createDetailedMaps [(name, d)]).detailedExtToLang tok with
    | none => simp [GoMap.hasKey, hD] at h1
    | some inner =>
      refine ⟨inner, rfl, fun m => ?_⟩
      have h2 := detailed_index2_isSome [(name, d)] tok m
      simp only [GoMap.index2, hD, Option.some_bind, List.mem_singleton, Prod.mk.injEq] at h2
      rw [h2]
      constructor
      · rintro ⟨_, ⟨e, _⟩, _⟩; exact e
      · intro e; exact ⟨d, ⟨e, rfl⟩, hc⟩
  rw [innerKeys_eq, Set.ncard_coe_Finset, simple_ext_index]
  refine ⟨List.toFinset_card_le _, ?_, ⟨by decide, ?_⟩, ⟨by decide, ?_⟩⟩
  · rw [← namesFor_nodup_iff recs hu t]
    exact Multiset.toFinset_card_eq_card_iff_nodup (m := (namesFor recs t : Multiset String))
  · exact single "C" ".h" (mkLang ["h", ".h"] []) (Or.inl ⟨"h", by decide, by decide⟩)
  · exact single "X" ".x" (mkLang [".x"] [".x"]) (Or.inr (by decide))

/-- Duplicates on the catalog where `Odd` lists `.x` three times: three names
in the simple list, fewer entries in the detailed inner map. -/
theorem duplicates_collapse_witness :
    Set.ncard {n | ((createDetailedMaps oddCatalog).detailedExtToLang.index2 ".x" n).isSome
        = true} ≤ 3 ∧
    Set.ncard {n | ((createDetailedMaps oddCatalog).detailedExtToLang.index2 ".x" n).isSome
        = true} ≠ 3 := by
  have h := duplicates_collapse oddCatalog (by decide) ".x"
  have hl : ((createSimpleMaps oddCatalog).extensionToLang.index ".x").length = 3 := by
    decide
  rw [hl] at h
  refine ⟨h.1, fun e => ?_⟩
  have h2 := h.2.1.1 e ("Odd", mkLang ["", "x", ".x"] ["", ".x"]) (by decide)
  exact absurd h2 (by decide)

/-- C13. What `fetchYAML` does in each case.  When `http.Get` returns an
error it returns the result of reading the embedded file, so that failure
is not propagated.  When `http.Get` returns a response, of whatever status,
it returns the result of `ioutil.ReadAll`, error included: in the
environment where the body cannot be read and the embedded file is
readable, `fetchYAML` returns the read error and `main` ends in
`log.Fatalf` without writing a file, instead of falling back. -/
theorem fetchYAML_cases (env : Env) (w : World) :
    (∀ err, env.httpGet = .error err → (fetchYAML env w).1 = env.embedded) ∧
    (∀ resp, env.httpGet = .ok resp →
        (fetchYAML env w).1 = resp.readAll ∧ (fetchYAML env w).2 = w) ∧
    (fetchYAML offlineEnv World.initial).1 = .ok [1, 2, 3] ∧
    brokenBodyEnv.embedded = .ok [1, 2, 3] ∧
    (fetchYAML brokenBodyEnv World.initial).1 = .error "unexpected EOF" ∧
    main brokenBodyEnv [] World.initial
      = .error ("Error obtaining YAML data: unexpected EOF", World.initial) := by
  refine ⟨?_, ?_, rfl, rfl, rfl, rfl⟩
  · intro err h
    simp [fetchYAML, h]
  · intro resp h
    simp [fetchYAML, h]

/-- C14. Mode selects the output pair.  Once the data is fetched and parsed,
with the flag unset `main` writes, after the files already there, the
longest run of `extension_to_language.json`, `language_to_extension.json`
that can be written, and with the flag set the longest run of
`detailed_extension_to_language.json`,
`detailed_language_to_extension.json`: exactly the pair of the mode when
both writes succeed, the extension index first, nothing when the first write
fails, and never a file of the other mode.  Either flag name, `d` or
`detailed`, sets the flag. -/
theorem mode_selects_outputs (env : Env) (assignments : List (String × Bool)) (w : World)
    (data : Bytes) (recs : Catalog) (hf : (fetchYAML env w).1 = .ok data)
    (hu : env.unmarshal data = .ok recs) :
    (parseDetailed assignments = false →
      (finalWorld (main env assignments w)).files
          = w.files ++ (simpleOutputs recs).takeWhile (attempt env) ∧
      ((main env assignments w).succeeded = true →
        (finalWorld (main env assignments w)).files = w.files ++ simpleOutputs recs) ∧
      ((simpleOutputs recs).all (attempt env) = true →
        (main env assignments w).succeeded = true) ∧
      (attempt env (extensionToLangFile,
          .nameLists (createSimpleMaps recs).extensionToLang) = false →
        (finalWorld (main env assignments w)).files = w.files)) ∧
    (parseDetailed assignments = true →
      (finalWorld (main env assignments w)).files
          = w.files ++ (detailedOutputs recs).takeWhile (attempt env) ∧
      ((main env assignments w).succeeded = true →
        (finalWorld (main env assignments w)).files = w.files ++ detailedOutputs recs) ∧
      ((detailedOutputs recs).all (attempt env) = true →
        (main env assignments w).succeeded = true) ∧
      (attempt env (detailedExtToLangFile,
          .nested (createDetailedMaps recs).detailedExtToLang) = false →
        (finalWorld (main env assignments w)).files = w.files)) ∧
    (simpleOutputs recs).map Prod.fst
      = ["extension_to_language.json", "language_to_extension.json"] ∧
    (detailedOutputs recs).map Prod.fst
      = ["detailed_extension_to_language.json", "detailed_language_to_extension.json"] ∧
    parseDetailed [] = false ∧
    parseDetailed [("d", true)] = true ∧
    parseDetailed [("detailed", true)] = true := by
  have hfiles := fetchYAML_files env w
  refine ⟨?_, ?_, rfl, rfl, by decide, by decide, by decide⟩
  · intro hp
    have hm := main_eq env assignments w data recs hf hu
    rw [hp] at hm
    simp only [Bool.false_eq_true, if_false] at hm
    obtain ⟨h1, h2⟩ := simpleFiles_spec env recs (fetchYAML env w).2
    rw [hfiles] at h1
    rw [hm]
    refine ⟨h1, ?_, ?_, ?_⟩
    · intro hs
      rw [h2] at hs
      rw [h1, List.takeWhile_eq_self_iff.2 (fun x hx => List.all_eq_true.1 hs x hx)]
    · intro ha; rw [h2]; exact ha
    · intro ha
      rw [h1]
      simp [simpleOutputs, List.takeWhile, ha]
  · intro hp
    have hm := main_eq env assignments w data recs hf hu
    rw [hp] at hm
    simp only [if_true] at hm
    obtain ⟨h1, h2⟩ := detailedFiles_spec env recs (fetchYAML env w).2
    rw [hfiles] at h1
    rw [hm]
    refine ⟨h1, ?_, ?_, ?_⟩
    · intro hs
      rw [h2] at hs
      rw [h1, List.takeWhile_eq_self_iff.2 (fun x hx => List.all_eq_true.1 hs x hx)]
    · intro ha; rw [h2]; exact ha
    · intro ha
      rw [h1]
      simp [detailedOutputs, List.takeWhile, ha]

/-- Both modes on the example catalog, from an empty state, with every write
succeeding: the names of the files written, in order. -/
theorem mode_selects_outputs_witness :
    (finalWorld (main (goodEnv exampleCatalog) [] World.initial)).files.map Prod.fst
      = ["extension_to_language.json", "language_to_extension.json"] ∧
    (finalWorld (main (goodEnv exampleCatalog) [("detailed", true)]
        World.initial)).files.map Prod.fst
      = ["detailed_extension_to_language.json", "detailed_language_to_extension.json"] := by
  have h := mode_selects_outputs (goodEnv exampleCatalog) [] World.initial [] exampleCatalog
    rfl rfl
  have h2 := mode_selects_outputs (goodEnv exampleCatalog) [("detailed", true)]
    World.initial [] exampleCatalog rfl rfl
  constructor
  · rw [(h.1 (by decide)).1]; rfl
  · rw [(h2.2.1 (by decide)).1]; rfl

end LinguistMap
